import Mathlib

/-!
# Trip analyzer: a shallow embedding of `analyzer.cpp`

The C++ translation unit parses a delimited trip log, keeps two frequency
tables per analyzer instance and answers two ranked queries.  This file
embeds its functions as Lean definitions and proves properties about them.

Modelling conventions
* A `std::string` is a `List Char`: the byte `b` of the C++ string is the
  character with code `b`, so every byte string is covered, comparison by
  code is comparison of `unsigned char`, and nothing below depends on a
  character other than through equality, its code, `isspace` and `isdigit`.
* An opened `std::ifstream` is the list of lines that successive
  `std::getline` calls deliver before the first failing call; a path that
  cannot be opened is `none`.
* An `std::unordered_map` is an association list.  Its order stands for the
  (unspecified) iteration order of the hash table; the ranked queries are
  proved independent of it.
* The `long long` counters are natural numbers: a counter is incremented at
  most once per line read (`counts_le_lines`), so it stays below `2^63` for
  every file with fewer than `2^63` lines.
* An object is known to this translation unit by its address only: the
  registry `g` holds the tables of an instance under its address and starts
  empty.  The unit defines no constructor and no destructor and `g` has
  internal linkage, so constructing or destroying an object leaves `g` as it
  is (`stepAction`); an address can be used again by a later object.
* Loops over indices carry a fuel argument; the fuel given is proved
  sufficient (`trimInPlace_loops_exit`).
* `std::sort` is an insertion sort driven by the comparator of the source;
  the result is proved to be the only sorted rearrangement of its input, so
  the choice of algorithm is not observable.
-/

namespace TripAnalyzer

/-- A `std::string`, as the list of its characters. -/
abbrev Str := List Char

/-! ## Character classification (`<cctype>`, default "C" locale) -/

/-- Library `std::isspace` on an `unsigned char`: space, `\t`, `\n`, `\v`, `\f`, `\r`. -/
def isspace (c : Char) : Bool :=
  c.toNat == 32 || (9 ≤ c.toNat && c.toNat ≤ 13)

/-- Library `std::isdigit` on an `unsigned char`: `'0'` .. `'9'`. -/
def isdigit (c : Char) : Bool :=
  48 ≤ c.toNat && c.toNat ≤ 57

/-! ## `trimInPlace` -/

/-- The loop `while (i < s.size() && isspace(s[i])) ++i;`, started at `i`,
with at most `fuel` iterations. -/
def trimScanFwd (s : Str) : Nat → Nat → Nat
  | 0, i => i
  | fuel + 1, i =>
    match s[i]? with
    | some c => if isspace c then trimScanFwd s fuel (i + 1) else i
    | none => i

/-- The loop `while (j > i && isspace(s[j - 1])) --j;`, started at `j`,
with at most `fuel` iterations. -/
def trimScanBwd (s : Str) (i : Nat) : Nat → Nat → Nat
  | 0, j => j
  | fuel + 1, j =>
    if j > i then
      match s[j - 1]? with
      | some c => if isspace c then trimScanBwd s i fuel (j - 1) else j
      | none => j
    else j

/-- Library `s.substr(pos, len)` for `pos ≤ s.size()`. -/
def substr (s : Str) (pos len : Nat) : Str :=
  (s.drop pos).take len

/-- Source `trimInPlace(s)`: the value of `s` when the function returns.  Each loop
runs at most `s.size()` times, which is the fuel given. -/
def trimInPlace (s : Str) : Str :=
  let i := trimScanFwd s s.length 0
  let j := trimScanBwd s i s.length s.length
  if i = 0 ∧ j = s.length then s else substr s i (j - i)

/-! ## `splitCSVLine` -/

/-- The body of `for (char ch : line)` in `splitCSVLine`, over the characters
still to be read, with the loop state `out`, `field`, `inQuotes`; after the
last character the pending field is pushed. -/
def splitLoop : Str → List Str → Str → Bool → List Str
  | [], out, field, _ => out ++ [field]
  | ch :: rest, out, field, inQuotes =>
    if ch = '"' then splitLoop rest out field (!inQuotes)
    else if ch = ',' ∧ inQuotes = false then splitLoop rest (out ++ [field]) [] inQuotes
    else splitLoop rest out (field ++ [ch]) inQuotes

/-- Source `splitCSVLine(line)`. -/
def splitCSVLine (line : Str) : List Str :=
  splitLoop line [] [] false

/-! ## `parseHour` -/

/-- Library `s.find(c)`: the index of the first occurrence of `c`, `none` for `npos`. -/
def find : Str → Char → Option Nat
  | [], _ => none
  | a :: t, c => if a = c then some 0 else (find t c).map (· + 1)

/-- Source `parseHour(dt)`: the hour, or `-1`. -/
def parseHour (dt : Str) : Int :=
  match find dt ' ' with
  | none => -1
  | some sp =>
    if sp + 3 > dt.length then -1
    else
      let c0 := dt.getD (sp + 1) ' '
      let c1 := dt.getD (sp + 2) ' '
      if !isdigit c0 || !isdigit c1 then -1
      else
        let hour : Int := ((c0.toNat : Int) - 48) * 10 + ((c1.toNat : Int) - 48)
        if hour < 0 ∨ hour > 23 then -1 else hour

/-! ## State -/

/-- Source `struct SlotKey`; `operator==` is equality of both fields. -/
structure SlotKey where
  zone : Str
  hour : Int
  deriving DecidableEq, Repr

/-- Source `struct Data`: the two frequency tables of one instance. -/
structure Data where
  zoneCounts : List (Str × Nat)
  slotCounts : List (SlotKey × Nat)
  deriving DecidableEq, Repr

/-- The registry `g`, keyed by the address of the instance. -/
abbrev Registry := Nat → Option Data

/-- The registry of a process in which no instance has ingested yet. -/
def emptyRegistry : Registry := fun _ => none

/-- Source `dataIf(self)`: the entry of `self`, `none` for `nullptr`. -/
def dataIf (g : Registry) (self : Nat) : Option Data := g self

/-- Increment `++m[key]`: `operator[]` inserts a zero counter for a new key, then the
counter is incremented. -/
def bump {κ : Type} [DecidableEq κ] (key : κ) : List (κ × Nat) → List (κ × Nat)
  | [] => [(key, 1)]
  | (k, c) :: t => if k = key then (k, c + 1) :: t else (k, c) :: bump key t

/-- The body of the `while (std::getline(in, line))` loop of `ingestFile`. -/
def ingestLine (d : Data) (line : Str) : Data :=
  if line.isEmpty then d
  else
    let fields := splitCSVLine line
    if fields.length ≠ 6 then d
    else
      let zone := trimInPlace (fields.getD 1 [])
      let dt := trimInPlace (fields.getD 3 [])
      if zone.isEmpty ∨ dt.isEmpty then d
      else
        let hour := parseHour dt
        if hour < 0 then d
        else
          { zoneCounts := bump zone d.zoneCounts
            slotCounts := bump ⟨zone, hour⟩ d.slotCounts }

/-- Source `TripAnalyzer::ingestFile` on the instance at address `self`; `csv` is what
opening `csvPath` gives. -/
def ingestFile (g : Registry) (self : Nat) (csv : Option (List Str)) : Registry :=
  match csv with
  | none => g
  | some lines =>
    let cleared : Data := { zoneCounts := [], slotCounts := [] }
    match lines with
    | [] => Function.update g self (some cleared)
    | _ :: rest => Function.update g self (some (rest.foldl ingestLine cleared))

/-! ## Ranking -/

/-- Library `operator<` of `std::string`: lexicographic on the character codes, a
proper prefix being smaller. -/
def strLess : Str → Str → Bool
  | [], [] => false
  | [], _ :: _ => true
  | _ :: _, [] => false
  | a :: as, b :: bs =>
    if a.toNat < b.toNat then true
    else if b.toNat < a.toNat then false
    else strLess as bs

/-- Result type `struct ZoneCount` of `topZones`. -/
structure ZoneCount where
  zone : Str
  count : Nat
  deriving DecidableEq, Repr

/-- Result type `struct SlotCount` of `topBusySlots`. -/
structure SlotCount where
  zone : Str
  hour : Int
  count : Nat
  deriving DecidableEq, Repr

/-- The comparator given to `std::sort` in `topZones`. -/
def zoneCountLess (a b : ZoneCount) : Bool :=
  if a.count ≠ b.count then decide (a.count > b.count)
  else strLess a.zone b.zone

/-- The comparator given to `std::sort` in `topBusySlots`. -/
def slotCountLess (a b : SlotCount) : Bool :=
  if a.count ≠ b.count then decide (a.count > b.count)
  else if a.zone ≠ b.zone then strLess a.zone b.zone
  else decide (a.hour < b.hour)

/-- Insertion of one element in front of the first element it does not
precede. -/
def sortInsert {α : Type} (comp : α → α → Bool) (a : α) : List α → List α
  | [] => [a]
  | b :: l => if comp a b then a :: b :: l else b :: sortInsert comp a l

/-- Library `std::sort(first, last, comp)`. -/
def sort {α : Type} (comp : α → α → Bool) : List α → List α
  | [] => []
  | a :: l => sortInsert comp a (sort comp l)

/-- Truncation `res.resize(k)` guarded by `k < res.size()`. -/
def truncate {α : Type} (k : Int) (res : List α) : List α :=
  if k.toNat < res.length then res.take k.toNat else res

/-- Source `TripAnalyzer::topZones`. -/
def topZones (g : Registry) (self : Nat) (k : Int) : List ZoneCount :=
  if k ≤ 0 then []
  else
    match dataIf g self with
    | none => []
    | some d =>
      let res := d.zoneCounts.map (fun kv => ZoneCount.mk kv.1 kv.2)
      truncate k (sort zoneCountLess res)

/-- Source `TripAnalyzer::topBusySlots`. -/
def topBusySlots (g : Registry) (self : Nat) (k : Int) : List SlotCount :=
  if k ≤ 0 then []
  else
    match dataIf g self with
    | none => []
    | some d =>
      let res := d.slotCounts.map (fun kv => SlotCount.mk kv.1.zone kv.1.hour kv.2)
      truncate k (sort slotCountLess res)

/-- A sequence of `ingestFile` calls, each on an instance and with what opening
its path gives, run in order from the registry `g`. -/
def runCalls (g : Registry) (calls : List (Nat × Option (List Str))) : Registry :=
  calls.foldl (fun r c => ingestFile r c.1 c.2) g

/-- What a program does with analyzer objects: it constructs one at an address,
destroys the one at an address, or calls `ingestFile` on the one at an address. -/
inductive Action where
  | construct (addr : Nat)
  | destroy (addr : Nat)
  | ingest (addr : Nat) (csv : Option (List Str))

/-- The registry after one action.  This translation unit defines no constructor
and no destructor, and only its functions can reach `g`; `ingestFile` is the
only one that writes to it, and nothing erases an entry. -/
def stepAction (g : Registry) : Action → Registry
  | Action.construct _ => g
  | Action.destroy _ => g
  | Action.ingest addr csv => ingestFile g addr csv

/-- The registry after a sequence of actions run in order from `g`. -/
def runActions (g : Registry) (actions : List Action) : Registry :=
  actions.foldl stepAction g

/-- Whether an ingestion has succeeded for the object now at `addr`, after the
actions, `before` telling whether one had succeeded before them: constructing
an object at `addr` starts a new instance, an `ingestFile` call on it that
opens its source is a successful ingestion. -/
def hasIngested (addr : Nat) : List Action → Bool → Bool
  | [], before => before
  | Action.construct a :: rest, before =>
    hasIngested addr rest (if a = addr then false else before)
  | Action.destroy _ :: rest, before => hasIngested addr rest before
  | Action.ingest a csv :: rest, before =>
    hasIngested addr rest (if a = addr ∧ csv.isSome = true then true else before)

/-! ## The same code with every indexed read checked

In the definitions of this section `none` stands for a read outside a string
or a vector (or a loop still running when its fuel is spent); every other
step is as in the definitions above. -/

/-- The forward loop of `trimInPlace`, the read `s[i]` checked; with no fuel
left a further iteration is `none`. -/
def trimScanFwdChecked (s : Str) : Nat → Nat → Option Nat
  | 0, i =>
    if i < s.length then
      match s[i]? with
      | none => none
      | some c => if isspace c then none else some i
    else some i
  | fuel + 1, i =>
    if i < s.length then
      match s[i]? with
      | none => none
      | some c => if isspace c then trimScanFwdChecked s fuel (i + 1) else some i
    else some i

/-- The backward loop of `trimInPlace`, the read `s[j - 1]` checked; with no
fuel left a further iteration is `none`. -/
def trimScanBwdChecked (s : Str) (i : Nat) : Nat → Nat → Option Nat
  | 0, j =>
    if j > i then
      match s[j - 1]? with
      | none => none
      | some c => if isspace c then none else some j
    else some j
  | fuel + 1, j =>
    if j > i then
      match s[j - 1]? with
      | none => none
      | some c => if isspace c then trimScanBwdChecked s i fuel (j - 1) else some j
    else some j

/-- Library `s.substr(pos, len)`, which throws when `pos > s.size()`. -/
def substrChecked (s : Str) (pos len : Nat) : Option Str :=
  if pos > s.length then none else some ((s.drop pos).take len)

/-- Source `trimInPlace(s)` with every read checked. -/
def trimInPlaceChecked (s : Str) : Option Str :=
  match trimScanFwdChecked s s.length 0 with
  | none => none
  | some i =>
    match trimScanBwdChecked s i s.length s.length with
    | none => none
    | some j => if i = 0 ∧ j = s.length then some s else substrChecked s i (j - i)

/-- Source `parseHour(dt)` with the reads `dt[sp + 1]` and `dt[sp + 2]` checked. -/
def parseHourChecked (dt : Str) : Option Int :=
  match find dt ' ' with
  | none => some (-1)
  | some sp =>
    if sp + 3 > dt.length then some (-1)
    else
      match dt[sp + 1]?, dt[sp + 2]? with
      | some c0, some c1 =>
        if !isdigit c0 || !isdigit c1 then some (-1)
        else
          let hour : Int := ((c0.toNat : Int) - 48) * 10 + ((c1.toNat : Int) - 48)
          if hour < 0 ∨ hour > 23 then some (-1) else some hour
      | _, _ => none

/-- The loop body of `ingestFile` with the reads `fields[1]` and `fields[3]`
and every read of the functions it calls checked. -/
def ingestLineChecked (d : Data) (line : Str) : Option Data :=
  if line.isEmpty then some d
  else
    let fields := splitCSVLine line
    if fields.length ≠ 6 then some d
    else
      match fields[1]?, fields[3]? with
      | some f1, some f3 =>
        match trimInPlaceChecked f1, trimInPlaceChecked f3 with
        | some zone, some dt =>
          if zone.isEmpty ∨ dt.isEmpty then some d
          else
            match parseHourChecked dt with
            | none => none
            | some hour =>
              if hour < 0 then some d
              else
                some { zoneCounts := bump zone d.zoneCounts
                       slotCounts := bump ⟨zone, hour⟩ d.slotCounts }
        | _, _ => none
      | _, _ => none

/-- The loop of `ingestFile` over the lines read, every read checked. -/
def ingestLinesChecked (d : Data) : List Str → Option Data
  | [] => some d
  | l :: ls =>
    match ingestLineChecked d l with
    | none => none
    | some d' => ingestLinesChecked d' ls

/-- Source `TripAnalyzer::ingestFile` with every read checked. -/
def ingestFileChecked (g : Registry) (self : Nat) (csv : Option (List Str)) :
    Option Registry :=
  match csv with
  | none => some g
  | some lines =>
    let cleared : Data := { zoneCounts := [], slotCounts := [] }
    match lines with
    | [] => some (Function.update g self (some cleared))
    | _ :: rest =>
      match ingestLinesChecked cleared rest with
      | none => none
      | some d => some (Function.update g self (some d))

/-! ## Notions the properties are stated with -/

/-- The count a table holds for `key`, an absent key counting as 0. -/
def countOf {κ : Type} [DecidableEq κ] : List (κ × Nat) → κ → Nat
  | [], _ => 0
  | (k, c) :: t, key => if k = key then c else countOf t key

/-- The shape hour extraction accepts: `dt` has a first space, two characters
`d1 d2` follow it, both are ASCII digits, and the number `h` they form is at
most 23. -/
def HourShape (dt : Str) (h : Nat) : Prop :=
  ∃ pre d1 d2 rest, dt = pre ++ ' ' :: d1 :: d2 :: rest ∧ ' ' ∉ pre ∧
    isdigit d1 = true ∧ isdigit d2 = true ∧
    h = 10 * (d1.toNat - 48) + (d2.toNat - 48) ∧ h ≤ 23

/-- The hour of a datetime as the specification words it: the two characters
after the first space, when both are ASCII digits forming a number at most 23. -/
def hourOf (dt : Str) : Option Nat :=
  match dt.dropWhile (fun c => c != ' ') with
  | _ :: d1 :: d2 :: _ =>
    if isdigit d1 = true ∧ isdigit d2 = true ∧ 10 * (d1.toNat - 48) + (d2.toNat - 48) ≤ 23
    then some (10 * (d1.toNat - 48) + (d2.toNat - 48))
    else none
  | _ => none

/-- Trimming as the specification words it: the longest all-whitespace prefix is
removed, then the longest all-whitespace suffix. -/
def trimSpec (s : Str) : Str :=
  (s.dropWhile isspace).rdropWhile isspace

/-- Whether position `i` of the string `s` holds a `','` that is preceded by an
even number of `'"'` characters. -/
def isUnquotedComma (s : Str) (i : Nat) : Bool :=
  decide (s[i]? = some ',' ∧ (s.take i).count '"' % 2 = 0)

/-- The pieces of `s` from position `start` on, cut at the positions `cuts`; the
character at a cut belongs to no piece. -/
def segments (s : Str) (start : Nat) : List Nat → List Str
  | [] => [s.drop start]
  | c :: cs => (s.drop start).take (c - start) :: segments s (c + 1) cs

/-- Field splitting as the specification words it: the line is split at its
commas outside double quotes, and the quotes are removed from every piece. -/
def fieldsSpec (s : Str) : List Str :=
  (segments s 0 ((List.range s.length).filter (isUnquotedComma s))).map
    fun f => f.filter fun c => c != '"'

/-- The record of a line as the specification words it: the line is well-formed
when splitting it on commas outside double quotes (quotes removed) gives
exactly 6 fields, field 1 trimmed is non-empty and field 3 trimmed has an
hour; it then maps to (trimmed field 1, that hour). -/
def recordOf (line : Str) : Option (Str × Nat) :=
  match fieldsSpec line with
  | [_, f1, _, f3, _, _] =>
    if trimSpec f1 = [] then none
    else (hourOf (trimSpec f3)).map (fun h => (trimSpec f1, h))
  | _ => none

/-- The postcondition of `std::sort`: no element precedes, under `comp`, an
element placed before it. -/
def Ordered {α : Type} (comp : α → α → Bool) (l : List α) : Prop :=
  l.Pairwise (fun a b => comp b a = false)

/-- A comparator that is a strict total order. -/
structure StrictTotal {α : Type} (comp : α → α → Bool) : Prop where
  asymm : ∀ a b, comp a b = true → comp b a = false
  trans : ∀ a b c, comp a b = true → comp b c = true → comp a c = true
  total : ∀ a b, comp a b = false → comp b a = false → a = b

/-- The two tables of every instance agree: for every zone the counts of its
slots add up to the count of the zone, every slot hour lies in 0..23, and a
zone is a key of the zone table iff it occurs in a key of the slot table. -/
def Consistent (g : Registry) : Prop :=
  ∀ self d, g self = some d → ∀ z : Str,
    (∑ h in Finset.range 24, countOf d.slotCounts ⟨z, (h : Int)⟩) = countOf d.zoneCounts z ∧
    (∀ key ∈ d.slotCounts.map Prod.fst, 0 ≤ key.hour ∧ key.hour ≤ 23) ∧
    (z ∈ d.zoneCounts.map Prod.fst ↔ ∃ h : Int, (⟨z, h⟩ : SlotKey) ∈ d.slotCounts.map Prod.fst)

/-- A table as `ingestFile` builds it: keys unique, every count positive. -/
def TableOK {κ : Type} (t : List (κ × Nat)) : Prop :=
  (t.map Prod.fst).Nodup ∧ ∀ e ∈ t, 0 < e.2

/-- The five-line source of the end-to-end scenario. -/
def scenarioFile : List Str :=
  ["id,pickup_zone,x,pickup_datetime,y,z".toList,
   "1,Downtown,_,2023-01-15 08:12:00,_,_".toList,
   "2,Uptown,_,2023-01-15 08:45:00,_,_".toList,
   "3,Downtown,_,2023-01-15 09:05:00,_,_".toList,
   "4,Downtown,_,not-a-date,_,_".toList]

/-- The state `ingestFile` leaves for an instance: both tables have unique keys
and positive counts, every slot hour lies in 0..23, and for every zone the
counts of its slots add up to the count of the zone. -/
def DataOK (d : Data) : Prop :=
  TableOK d.zoneCounts ∧ TableOK d.slotCounts ∧
  (∀ key ∈ d.slotCounts.map Prod.fst, 0 ≤ key.hour ∧ key.hour ≤ 23) ∧
  ∀ z : Str,
    (∑ h in Finset.range 24, countOf d.slotCounts ⟨z, (h : Int)⟩) = countOf d.zoneCounts z

/-- Tables with two zones of equal count, enumerated with "B" first. -/
def tieData : Data :=
  { zoneCounts := [("B".toList, 5), ("A".toList, 5)]
    slotCounts := [(⟨"B".toList, 7⟩, 5), (⟨"A".toList, 9⟩, 2), (⟨"A".toList, 7⟩, 3)] }

/-- The tables of `tieData`, enumerated in another order. -/
def tieDataSwapped : Data :=
  { zoneCounts := [("A".toList, 5), ("B".toList, 5)]
    slotCounts := [(⟨"A".toList, 9⟩, 2), (⟨"B".toList, 7⟩, 5), (⟨"A".toList, 7⟩, 3)] }

/-- A registry in which every instance holds `tieData`. -/
def tieRegistry : Registry := fun _ => some tieData

/-- A registry in which every instance holds `tieDataSwapped`. -/
def tieRegistrySwapped : Registry := fun _ => some tieDataSwapped

/-- A string that is empty or starts and ends with a non-whitespace character. -/
def Trimmed (t : Str) : Prop :=
  t = [] ∨ ∃ a b, t.head? = some a ∧ t.getLast? = some b ∧ isspace a = false ∧ isspace b = false

/-- Valid keys: every zone key is non-empty and trimmed, every slot hour lies
in 0..23. -/
def KeysValid (d : Data) : Prop :=
  (∀ z ∈ d.zoneCounts.map Prod.fst, z ≠ [] ∧ Trimmed z) ∧
  (∀ key ∈ d.slotCounts.map Prod.fst,
    key.zone ≠ [] ∧ Trimmed key.zone ∧ 0 ≤ key.hour ∧ key.hour ≤ 23)

/-- The number of `','` characters of `s` that are preceded by an even number
of `'"'` characters. -/
def unquotedCommaCount (s : Str) : Nat :=
  ((List.range s.length).filter (isUnquotedComma s)).length

/-- The string `s` with every `'"'` and every unquoted `','` removed. -/
def withoutQuotesAndSeparators (s : Str) : Str :=
  (List.range s.length).filterMap fun i =>
    match s[i]? with
    | some c => if c = '"' ∨ isUnquotedComma s i = true then none else some c
    | none => none

/-- The unquoted commas of a string that follows `seen` characters `'"'`. -/
def commasFrom (seen : Nat) : Str → Nat
  | [] => 0
  | c :: t =>
    (if c = ',' ∧ seen % 2 = 0 then 1 else 0) + commasFrom (if c = '"' then seen + 1 else seen) t

/-- What is left of a string that follows `seen` characters `'"'` when its
`'"'` characters and unquoted commas are removed. -/
def stripFrom (seen : Nat) : Str → Str
  | [] => []
  | c :: t =>
    if c = '"' then stripFrom (seen + 1) t
    else if c = ',' ∧ seen % 2 = 0 then stripFrom seen t
    else c :: stripFrom seen t

/-- The character at position `i` of a string that follows `seen` characters
`'"'`, unless it is a `'"'` or an unquoted `','`. -/
def keptAt (seen : Nat) (s : Str) (i : Nat) : Option Char :=
  match s[i]? with
  | some c =>
    if c = '"' ∨ (c = ',' ∧ (seen + (s.take i).count '"') % 2 = 0) then none else some c
  | none => none

/-- The fields joined with `','`. -/
def joinComma : List Str → Str
  | [] => []
  | [f] => f
  | f :: f' :: t => f ++ ',' :: joinComma (f' :: t)

/-- A field wrapped in double quotes. -/
def quoted (f : Str) : Str :=
  '"' :: f ++ ['"']

/-- The positions of the unquoted commas of a string that follows `seen`
characters `'"'`. -/
def cutsFrom (seen : Nat) (s : Str) : List Nat :=
  (List.range s.length).filter fun i =>
    decide (s[i]? = some ',' ∧ (seen + (s.take i).count '"') % 2 = 0)

/-- The fields of a string that follows `seen` characters `'"'`, read from its
first character on. -/
def fieldsFrom (seen : Nat) : Str → List Str
  | [] => [[]]
  | c :: t =>
    if c = '"' then fieldsFrom (seen + 1) t
    else if c = ',' ∧ seen % 2 = 0 then [] :: fieldsFrom seen t
    else (fieldsFrom seen t).modifyHead fun f => c :: f

/-- An object at address 0 ingests the scenario source and is destroyed; a
second object is then constructed at address 0 and never ingests. -/
def reusedAddressTrace : List Action :=
  [Action.construct 0, Action.ingest 0 (some scenarioFile), Action.destroy 0,
   Action.construct 0]

/-! # Theorems -/

/-! ## `find` and `parseHour` -/

theorem find_eq_none {s : Str} {c : Char} : find s c = none ↔ c ∉ s := by
  induction s with
  | nil => simp [find]
  | cons a t ih =>
    by_cases h : a = c
    · simp [find, h]
    · simp [find, h, ih, Ne.symm h]

theorem find_eq_some {s : Str} {c : Char} {n : Nat} :
    find s c = some n ↔ ∃ pre rest, s = pre ++ c :: rest ∧ c ∉ pre ∧ pre.length = n := by
  induction s generalizing n with
  | nil => simp [find]
  | cons a t ih =>
    by_cases h : a = c
    · subst h
      simp only [find, if_true, Option.some.injEq]
      constructor
      · rintro rfl
        exact ⟨[], t, rfl, by simp, rfl⟩
      · rintro ⟨pre, rest, he, hn, hl⟩
        cases pre with
        | nil => simpa using hl
        | cons p ps =>
          simp only [List.cons_append, List.cons.injEq] at he
          exact absurd (by rw [he.1]; simp) hn
    · simp only [find, h, if_false, Option.map_eq_some']
      constructor
      · rintro ⟨m, hm, rfl⟩
        obtain ⟨pre, rest, he, hn, hl⟩ := ih.mp hm
        refine ⟨a :: pre, rest, by simp [he], ?_, by simp [hl]⟩
        simp [hn, Ne.symm h]
      · rintro ⟨pre, rest, he, hn, hl⟩
        cases pre with
        | nil =>
          simp only [List.nil_append, List.cons.injEq] at he
          exact absurd he.1 h
        | cons p ps =>
          simp only [List.cons_append, List.cons.injEq] at he
          refine ⟨ps.length, ih.mpr ⟨ps, rest, he.2, ?_, rfl⟩, by simpa using hl⟩
          intro hc
          exact hn (List.mem_cons_of_mem _ hc)

theorem find_first {pre rest : Str} {c : Char} (h : c ∉ pre) :
    find (pre ++ c :: rest) c = some pre.length :=
  find_eq_some.mpr ⟨pre, rest, rfl, h, rfl⟩

/-- Value of `parseHour` on a string whose first space is followed by two characters. -/
theorem parseHour_two (pre rest : Str) (d1 d2 : Char) (hpre : ' ' ∉ pre) :
    parseHour (pre ++ ' ' :: d1 :: d2 :: rest) =
      if isdigit d1 = true ∧ isdigit d2 = true ∧ 10 * (d1.toNat - 48) + (d2.toNat - 48) ≤ 23
      then ((10 * (d1.toNat - 48) + (d2.toNat - 48) : Nat) : Int) else -1 := by
  have hlen : ¬ (pre.length + 3 > (pre ++ ' ' :: d1 :: d2 :: rest).length) := by
    simp only [List.length_append, List.length_cons]; omega
  have g1 : (pre ++ ' ' :: d1 :: d2 :: rest).getD (pre.length + 1) ' ' = d1 := by
    rw [List.getD_eq_getElem?_getD, List.getElem?_append_right (by omega),
      Nat.add_sub_cancel_left]
    simp
  have g2 : (pre ++ ' ' :: d1 :: d2 :: rest).getD (pre.length + 2) ' ' = d2 := by
    rw [List.getD_eq_getElem?_getD, List.getElem?_append_right (by omega),
      Nat.add_sub_cancel_left]
    simp
  unfold parseHour
  rw [find_first hpre]
  simp only [hlen, if_false, g1, g2]
  by_cases h1 : isdigit d1 = true
  · by_cases h2 : isdigit d2 = true
    · have b1 : 48 ≤ d1.toNat ∧ d1.toNat ≤ 57 := by simpa [isdigit] using h1
      have b2 : 48 ≤ d2.toNat ∧ d2.toNat ≤ 57 := by simpa [isdigit] using h2
      simp only [h1, h2, Bool.not_true, Bool.or_self, Bool.false_eq_true, if_false, true_and]
      by_cases h3 : 10 * (d1.toNat - 48) + (d2.toNat - 48) ≤ 23
      · rw [if_neg (by omega), if_pos h3]; omega
      · rw [if_pos (by omega), if_neg h3]
    · simp [h1, h2]
  · simp [h1]

/-- Value of `parseHour` on a string with no space, or with fewer than two characters
after its first space. -/
theorem parseHour_short (dt : Str)
    (h : ∀ pre d1 d2 rest, dt = pre ++ ' ' :: d1 :: d2 :: rest → ' ' ∈ pre) :
    parseHour dt = -1 := by
  unfold parseHour
  cases hf : find dt ' ' with
  | none => rfl
  | some sp =>
    obtain ⟨pre, rest, he, hn, hl⟩ := find_eq_some.mp hf
    simp only
    rw [if_pos]
    match rest, he with
    | [], he => subst he; simp; omega
    | [_], he => subst he; simp; omega
    | d1 :: d2 :: r, he => exact absurd (h pre d1 d2 r he) hn

theorem hourShape_unique {dt : Str} {pre rest : Str} {d1 d2 : Char} {h : Nat}
    (hpre : ' ' ∉ pre) (he : dt = pre ++ ' ' :: d1 :: d2 :: rest) (hs : HourShape dt h) :
    isdigit d1 = true ∧ isdigit d2 = true ∧
      h = 10 * (d1.toNat - 48) + (d2.toNat - 48) ∧ h ≤ 23 := by
  obtain ⟨pre', e1, e2, rest', he', hpre', r⟩ := hs
  have hf : find dt ' ' = some pre.length := by rw [he]; exact find_first hpre
  have hf' : find dt ' ' = some pre'.length := by rw [he']; exact find_first hpre'
  have hl : pre.length = pre'.length := by simpa using hf.symm.trans hf'
  rw [he] at he'
  have := List.append_inj he' hl
  obtain ⟨-, h2⟩ := this
  simp only [List.cons.injEq, true_and] at h2
  obtain ⟨rfl, rfl, -⟩ := h2
  exact r

/-- A string either has its first space followed by two characters, or
`parseHour` discards it. -/
theorem parseHour_cases (dt : Str) :
    (∃ pre d1 d2 rest, dt = pre ++ ' ' :: d1 :: d2 :: rest ∧ ' ' ∉ pre) ∨
      ((∀ pre d1 d2 rest, dt = pre ++ ' ' :: d1 :: d2 :: rest → ' ' ∈ pre) ∧
        parseHour dt = -1) := by
  by_cases hex : ∃ pre d1 d2 rest, dt = pre ++ ' ' :: d1 :: d2 :: rest ∧ ' ' ∉ pre
  · exact Or.inl hex
  · have hall : ∀ pre d1 d2 rest, dt = pre ++ ' ' :: d1 :: d2 :: rest → ' ' ∈ pre := by
      intro pre d1 d2 rest he
      by_contra hn
      exact hex ⟨pre, d1, d2, rest, he, hn⟩
    exact Or.inr ⟨hall, parseHour_short dt hall⟩

theorem parseHour_eq_iff (dt : Str) (h : Nat) : parseHour dt = (h : Int) ↔ HourShape dt h := by
  rcases parseHour_cases dt with ⟨pre, d1, d2, rest, he, hpre⟩ | ⟨hall, hm⟩
  · constructor
    · intro hp
      rw [he, parseHour_two pre rest d1 d2 hpre] at hp
      by_cases hc : isdigit d1 = true ∧ isdigit d2 = true ∧
          10 * (d1.toNat - 48) + (d2.toNat - 48) ≤ 23
      · rw [if_pos hc] at hp
        have hh : 10 * (d1.toNat - 48) + (d2.toNat - 48) = h := by exact_mod_cast hp
        exact ⟨pre, d1, d2, rest, he, hpre, hc.1, hc.2.1, hh.symm, by omega⟩
      · rw [if_neg hc] at hp
        omega
    · intro hs
      obtain ⟨a, b, c, d⟩ := hourShape_unique hpre he hs
      rw [he, parseHour_two pre rest d1 d2 hpre, if_pos ⟨a, b, by omega⟩]
      exact_mod_cast c.symm
  · constructor
    · intro hp; rw [hm] at hp; omega
    · rintro ⟨pre, d1, d2, rest, he, hpre, -⟩
      exact absurd (hall pre d1 d2 rest he) hpre

theorem parseHour_range (dt : Str) :
    parseHour dt = -1 ∨ ∃ h : Nat, parseHour dt = (h : Int) ∧ h ≤ 23 := by
  rcases parseHour_cases dt with ⟨pre, d1, d2, rest, he, hpre⟩ | ⟨-, hm⟩
  · rw [he, parseHour_two pre rest d1 d2 hpre]
    split_ifs with hc
    · exact Or.inr ⟨_, rfl, hc.2.2⟩
    · exact Or.inl rfl
  · exact Or.inl hm

/-! ## `splitCSVLine` -/

theorem commasFrom_eq (l : Str) (seen : Nat) :
    commasFrom seen l = ((List.range l.length).filter fun i =>
      decide (l[i]? = some ',' ∧ (seen + (l.take i).count '"') % 2 = 0)).length := by
  induction l generalizing seen with
  | nil => rfl
  | cons a l ih =>
    rw [List.length_cons, List.range_succ_eq_map, List.filter_cons, List.filter_map,
      commasFrom, ih]
    have hcongr : (List.range l.length).filter
        ((fun i => decide ((a :: l)[i]? = some ',' ∧
          (seen + ((a :: l).take i).count '"') % 2 = 0)) ∘ Nat.succ) =
        (List.range l.length).filter fun i =>
          decide (l[i]? = some ',' ∧
            ((if a = '"' then seen + 1 else seen) + (l.take i).count '"') % 2 = 0) := by
      apply List.filter_congr
      intro i _
      simp only [Function.comp, Nat.succ_eq_add_one, List.getElem?_cons_succ, List.take_succ_cons,
        List.count_cons, beq_iff_eq]
      by_cases ha : a = '"'
      · simp only [ha, if_true]
        have e : seen + ((l.take i).count '"' + 1) = seen + 1 + (l.take i).count '"' := by
          omega
        rw [e]
      · simp only [ha, if_false, Nat.add_zero]
    rw [hcongr]
    by_cases h0 : a = ',' ∧ seen % 2 = 0
    · simp [h0, Nat.add_comm]
    · have : ¬ ((a :: l)[0]? = some ',' ∧ (seen + ((a :: l).take 0).count '"') % 2 = 0) := by
        simpa using h0
      simp [h0, this]

theorem keptAt_zero (seen : Nat) (a : Char) (l : Str) :
    keptAt seen (a :: l) 0 =
      if a = '"' ∨ (a = ',' ∧ seen % 2 = 0) then none else some a := by
  simp [keptAt]

theorem keptAt_succ (seen : Nat) (a : Char) (l : Str) (i : Nat) :
    keptAt seen (a :: l) (i + 1) = keptAt (if a = '"' then seen + 1 else seen) l i := by
  unfold keptAt
  simp only [List.getElem?_cons_succ, List.take_succ_cons, List.count_cons, beq_iff_eq]
  by_cases ha : a = '"'
  · simp only [ha, if_true]
    have e : seen + ((l.take i).count '"' + 1) = seen + 1 + (l.take i).count '"' := by
      omega
    rw [e]
  · simp only [ha, if_false, Nat.add_zero]

theorem stripFrom_eq (l : Str) (seen : Nat) :
    stripFrom seen l = (List.range l.length).filterMap (keptAt seen l) := by
  induction l generalizing seen with
  | nil => rfl
  | cons a l ih =>
    have hcongr : (List.range l.length).filterMap (keptAt seen (a :: l) ∘ Nat.succ) =
        (List.range l.length).filterMap (keptAt (if a = '"' then seen + 1 else seen) l) := by
      apply List.filterMap_congr
      intro i _
      exact keptAt_succ seen a l i
    rw [List.length_cons, List.range_succ_eq_map, List.filterMap_cons, List.filterMap_map,
      keptAt_zero, hcongr, stripFrom]
    by_cases ha : a = '"'
    · subst ha
      simp only [if_true, true_or]
      exact ih (seen + 1)
    · simp only [ha, if_false, false_or]
      by_cases h0 : a = ',' ∧ seen % 2 = 0
      · rw [if_pos h0, if_pos h0]
        exact ih seen
      · rw [if_neg h0, if_neg h0, ih seen]

theorem unquotedCommaCount_eq (l : Str) : unquotedCommaCount l = commasFrom 0 l := by
  rw [commasFrom_eq]
  unfold unquotedCommaCount isUnquotedComma
  simp only [Nat.zero_add]

theorem withoutQuotesAndSeparators_eq (l : Str) :
    withoutQuotesAndSeparators l = stripFrom 0 l := by
  rw [stripFrom_eq]
  unfold withoutQuotesAndSeparators
  apply List.filterMap_congr
  intro i _
  unfold keptAt isUnquotedComma
  cases hi : l[i]? with
  | none => rfl
  | some c =>
    simp only [Nat.zero_add, Option.some.injEq, decide_eq_true_eq]

/-- What the loop of `splitCSVLine` returns from any loop state, `seen` being
the number of `'"'` characters read so far. -/
theorem splitLoop_spec (rest : Str) (seen : Nat) (out : List Str) (field : Str)
    (inQuotes : Bool) (hq : inQuotes = decide (seen % 2 = 1)) :
    (splitLoop rest out field inQuotes).length = out.length + 1 + commasFrom seen rest ∧
    (splitLoop rest out field inQuotes).flatten =
      out.flatten ++ (field ++ stripFrom seen rest) ∧
    ((∀ f ∈ out, '"' ∉ f) → '"' ∉ field →
      ∀ f ∈ splitLoop rest out field inQuotes, '"' ∉ f) := by
  induction rest generalizing seen out field inQuotes with
  | nil =>
    refine ⟨by simp [splitLoop, commasFrom], by simp [splitLoop, stripFrom], ?_⟩
    intro ho hf f hmem
    simp only [splitLoop, List.mem_append, List.mem_singleton] at hmem
    rcases hmem with h | h
    · exact ho f h
    · rw [h]; exact hf
  | cons ch rest ih =>
    unfold splitLoop commasFrom stripFrom
    by_cases hch : ch = '"'
    · subst hch
      simp only [if_true]
      have hq' : (!inQuotes) = decide ((seen + 1) % 2 = 1) := by
        rw [hq]
        by_cases h : seen % 2 = 1
        · have : ¬ (seen + 1) % 2 = 1 := by omega
          simp [h, this]
        · have : (seen + 1) % 2 = 1 := by omega
          simp [h, this]
      obtain ⟨h1, h2, h3⟩ := ih (seen + 1) out field (!inQuotes) hq'
      refine ⟨?_, h2, h3⟩
      rw [h1]
      simp
    · rw [if_neg hch, if_neg hch, if_neg hch]
      by_cases hc : ch = ',' ∧ inQuotes = false
      · have hs : ch = ',' ∧ seen % 2 = 0 := by
          refine ⟨hc.1, ?_⟩
          have := hc.2
          rw [hq] at this
          have h' : ¬ seen % 2 = 1 := by simpa using this
          omega
        rw [if_pos hc, if_pos hs, if_pos hs]
        obtain ⟨h1, h2, h3⟩ := ih seen (out ++ [field]) [] inQuotes hq
        refine ⟨?_, ?_, ?_⟩
        · rw [h1]; simp; omega
        · rw [h2]; simp
        · intro ho hf
          apply h3
          · intro f hmem
            rcases List.mem_append.mp hmem with h | h
            · exact ho f h
            · rw [List.mem_singleton.mp h]; exact hf
          · simp
      · have hs : ¬ (ch = ',' ∧ seen % 2 = 0) := by
          rintro ⟨h1, h2⟩
          apply hc
          refine ⟨h1, ?_⟩
          rw [hq]
          have : ¬ seen % 2 = 1 := by omega
          simp [this]
        rw [if_neg hc, if_neg hs, if_neg hs]
        obtain ⟨h1, h2, h3⟩ := ih seen out (field ++ [ch]) inQuotes hq
        refine ⟨?_, ?_, ?_⟩
        · rw [h1]; simp
        · rw [h2]; simp
        · intro ho hf
          apply h3 ho
          intro hmem
          rcases List.mem_append.mp hmem with h | h
          · exact hf h
          · exact hch (List.mem_singleton.mp h).symm

theorem splitLoop_quote (rest : Str) (out : List Str) (field : Str) (q : Bool) :
    splitLoop ('"' :: rest) out field q = splitLoop rest out field (!q) := by
  simp [splitLoop]

theorem splitLoop_comma (rest : Str) (out : List Str) (field : Str) :
    splitLoop (',' :: rest) out field false = splitLoop rest (out ++ [field]) [] false := by
  simp [splitLoop]

theorem splitLoop_nil (out : List Str) (field : Str) (q : Bool) :
    splitLoop [] out field q = out ++ [field] := by
  simp [splitLoop]

theorem splitLoop_quoted_run (f rest : Str) (out : List Str) (field : Str)
    (hf : '"' ∉ f) :
    splitLoop (f ++ rest) out field true = splitLoop rest out (field ++ f) true := by
  induction f generalizing field with
  | nil => simp
  | cons c t ih =>
    have hc : c ≠ '"' := fun e => hf (by rw [e]; exact List.mem_cons_self _ _)
    have ht : '"' ∉ t := fun h => hf (List.mem_cons_of_mem _ h)
    rw [List.cons_append, splitLoop, if_neg hc, if_neg (by simp), ih _ ht]
    simp

theorem splitLoop_plain_run (f rest : Str) (out : List Str) (field : Str)
    (hf : '"' ∉ f) (hcomma : ',' ∉ f) :
    splitLoop (f ++ rest) out field false = splitLoop rest out (field ++ f) false := by
  induction f generalizing field with
  | nil => simp
  | cons c t ih =>
    have hc : c ≠ '"' := fun e => hf (by rw [e]; exact List.mem_cons_self _ _)
    have hc' : c ≠ ',' := fun e => hcomma (by rw [e]; exact List.mem_cons_self _ _)
    have ht : '"' ∉ t := fun h => hf (List.mem_cons_of_mem _ h)
    have ht' : ',' ∉ t := fun h => hcomma (List.mem_cons_of_mem _ h)
    rw [List.cons_append, splitLoop, if_neg hc, if_neg (by simp [hc']), ih _ ht ht']
    simp

theorem splitLoop_quoted_field (f rest : Str) (out : List Str) (hf : '"' ∉ f) :
    splitLoop (quoted f ++ rest) out [] false = splitLoop rest out f false := by
  unfold quoted
  simp only [List.cons_append, List.append_assoc, List.nil_append]
  rw [splitLoop_quote, Bool.not_false, splitLoop_quoted_run f _ out [] hf, splitLoop_quote]
  simp

theorem splitLoop_quoted_fields (fields : List Str) (out : List Str) (hne : fields ≠ [])
    (hf : ∀ f ∈ fields, '"' ∉ f) :
    splitLoop (joinComma (fields.map quoted)) out [] false = out ++ fields := by
  induction fields generalizing out with
  | nil => exact absurd rfl hne
  | cons f t ih =>
    have hq : '"' ∉ f := hf f (List.mem_cons_self _ _)
    cases t with
    | nil =>
      have h := splitLoop_quoted_field f [] out hq
      rw [List.append_nil] at h
      simp only [List.map_cons, List.map_nil, joinComma]
      rw [h, splitLoop_nil]
    | cons f' t' =>
      simp only [List.map_cons, joinComma]
      rw [splitLoop_quoted_field f _ out hq, splitLoop_comma]
      have h := ih (out ++ [f]) (by simp) (fun x hx => hf x (List.mem_cons_of_mem _ hx))
      simp only [List.map_cons] at h
      rw [h]
      simp

theorem splitLoop_plain_fields (fields : List Str) (out : List Str) (hne : fields ≠ [])
    (hf : ∀ f ∈ fields, '"' ∉ f ∧ ',' ∉ f) :
    splitLoop (joinComma fields) out [] false = out ++ fields := by
  induction fields generalizing out with
  | nil => exact absurd rfl hne
  | cons f t ih =>
    obtain ⟨hq, hc⟩ := hf f (List.mem_cons_self _ _)
    cases t with
    | nil =>
      have h := splitLoop_plain_run f [] out [] hq hc
      rw [List.append_nil, List.nil_append] at h
      simp only [joinComma]
      rw [h, splitLoop_nil]
    | cons f' t' =>
      simp only [joinComma]
      rw [splitLoop_plain_run f _ out [] hq hc, List.nil_append, splitLoop_comma]
      rw [ih (out ++ [f]) (by simp) (fun x hx => hf x (List.mem_cons_of_mem _ hx))]
      simp

theorem cutsFrom_cons (seen : Nat) (a : Char) (l : Str) :
    cutsFrom seen (a :: l) =
      (if a = ',' ∧ seen % 2 = 0 then [0] else []) ++
        (cutsFrom (if a = '"' then seen + 1 else seen) l).map Nat.succ := by
  unfold cutsFrom
  rw [List.length_cons, List.range_succ_eq_map, List.filter_cons, List.filter_map]
  have hcongr : (List.range l.length).filter
      ((fun i => decide ((a :: l)[i]? = some ',' ∧
        (seen + ((a :: l).take i).count '"') % 2 = 0)) ∘ Nat.succ) =
      (List.range l.length).filter fun i =>
        decide (l[i]? = some ',' ∧
          ((if a = '"' then seen + 1 else seen) + (l.take i).count '"') % 2 = 0) := by
    apply List.filter_congr
    intro i _
    simp only [Function.comp, Nat.succ_eq_add_one, List.getElem?_cons_succ, List.take_succ_cons,
      List.count_cons, beq_iff_eq]
    by_cases ha : a = '"'
    · simp only [ha, if_true]
      have e : seen + ((l.take i).count '"' + 1) = seen + 1 + (l.take i).count '"' := by
        omega
      rw [e]
    · simp only [ha, if_false, Nat.add_zero]
  rw [hcongr]
  by_cases h0 : a = ',' ∧ seen % 2 = 0
  · simp [h0]
  · have : ¬ ((a :: l)[0]? = some ',' ∧ (seen + ((a :: l).take 0).count '"') % 2 = 0) := by
      simpa using h0
    simp [h0, this]

theorem cutsFrom_zero (s : Str) :
    cutsFrom 0 s = (List.range s.length).filter (isUnquotedComma s) := by
  unfold cutsFrom
  apply List.filter_congr
  intro i _
  unfold isUnquotedComma
  rw [Nat.zero_add]

theorem segments_ne_nil (s : Str) (start : Nat) (cuts : List Nat) :
    segments s start cuts ≠ [] := by
  cases cuts <;> simp [segments]

theorem segments_shift (a : Char) (l : Str) (k : Nat) (cs : List Nat) :
    segments (a :: l) (k + 1) (cs.map Nat.succ) = segments l k cs := by
  induction cs generalizing k with
  | nil => simp [segments]
  | cons x cs ih =>
    simp only [List.map_cons, segments, List.drop_succ_cons, Nat.succ_eq_add_one,
      Nat.add_sub_add_right]
    rw [← ih (x + 1)]

theorem segments_zero_cut (a : Char) (l : Str) (cs : List Nat) :
    segments (a :: l) 0 (0 :: cs.map Nat.succ) = [] :: segments l 0 cs := by
  rw [segments, Nat.zero_add, segments_shift]
  simp

theorem segments_zero_keep (a : Char) (l : Str) (cs : List Nat) :
    segments (a :: l) 0 (cs.map Nat.succ) = (segments l 0 cs).modifyHead fun f => a :: f := by
  cases cs with
  | nil => simp [segments]
  | cons x cs =>
    simp only [List.map_cons, segments, List.drop_zero, Nat.succ_eq_add_one, Nat.sub_zero,
      List.take_succ_cons, List.modifyHead_cons]
    rw [segments_shift]

theorem map_modifyHead_filter_keep (a : Char) (ha : a ≠ '"') (L : List Str) :
    (L.modifyHead fun f => a :: f).map (fun f => f.filter fun c => c != '"') =
      (L.map fun f => f.filter fun c => c != '"').modifyHead fun f => a :: f := by
  cases L with
  | nil => rfl
  | cons f fs => simp [ha]

theorem map_modifyHead_filter_drop (L : List Str) :
    (L.modifyHead fun f => '"' :: f).map (fun f => f.filter fun c => c != '"') =
      L.map fun f => f.filter fun c => c != '"' := by
  cases L with
  | nil => rfl
  | cons f fs => simp

theorem fieldsFrom_eq (l : Str) (seen : Nat) :
    fieldsFrom seen l =
      (segments l 0 (cutsFrom seen l)).map fun f => f.filter fun c => c != '"' := by
  induction l generalizing seen with
  | nil => simp [fieldsFrom, cutsFrom, segments]
  | cons a l ih =>
    rw [cutsFrom_cons, fieldsFrom]
    by_cases ha : a = '"'
    · subst ha
      rw [if_pos rfl, if_neg (by simp), if_pos rfl, List.nil_append, segments_zero_keep,
        map_modifyHead_filter_drop]
      exact ih (seen + 1)
    · rw [if_neg ha, if_neg ha]
      by_cases h0 : a = ',' ∧ seen % 2 = 0
      · rw [if_pos h0, if_pos h0, List.singleton_append, segments_zero_cut, List.map_cons,
          ih seen]
        rfl
      · rw [if_neg h0, if_neg h0, List.nil_append, segments_zero_keep,
          map_modifyHead_filter_keep a ha, ih seen]

theorem fieldsFrom_ne_nil (l : Str) (seen : Nat) : fieldsFrom seen l ≠ [] := by
  rw [fieldsFrom_eq]
  simp [segments_ne_nil]

theorem splitLoop_eq_fieldsFrom (rest : Str) (seen : Nat) (out : List Str) (field : Str)
    (inQuotes : Bool) (hq : inQuotes = decide (seen % 2 = 1)) :
    splitLoop rest out field inQuotes =
      out ++ (fieldsFrom seen rest).modifyHead fun f => field ++ f := by
  induction rest generalizing seen out field inQuotes with
  | nil => simp [splitLoop, fieldsFrom]
  | cons ch rest ih =>
    unfold splitLoop fieldsFrom
    by_cases hch : ch = '"'
    · subst hch
      simp only [if_true]
      have hq' : (!inQuotes) = decide ((seen + 1) % 2 = 1) := by
        rw [hq]
        by_cases h : seen % 2 = 1
        · have : ¬ (seen + 1) % 2 = 1 := by omega
          simp [h, this]
        · have : (seen + 1) % 2 = 1 := by omega
          simp [h, this]
      exact ih (seen + 1) out field (!inQuotes) hq'
    · rw [if_neg hch, if_neg hch]
      by_cases hc : ch = ',' ∧ inQuotes = false
      · have hs : ch = ',' ∧ seen % 2 = 0 := by
          refine ⟨hc.1, ?_⟩
          have := hc.2
          rw [hq] at this
          have h' : ¬ seen % 2 = 1 := by simpa using this
          omega
        rw [if_pos hc, if_pos hs, ih seen (out ++ [field]) [] inQuotes hq]
        obtain ⟨f, fs, hf⟩ := List.exists_cons_of_ne_nil (fieldsFrom_ne_nil rest seen)
        rw [hf]
        simp
      · have hs : ¬ (ch = ',' ∧ seen % 2 = 0) := by
          rintro ⟨h1, h2⟩
          apply hc
          refine ⟨h1, ?_⟩
          rw [hq]
          have : ¬ seen % 2 = 1 := by omega
          simp [this]
        rw [if_neg hc, if_neg hs, ih seen out (field ++ [ch]) inQuotes hq]
        obtain ⟨f, fs, hf⟩ := List.exists_cons_of_ne_nil (fieldsFrom_ne_nil rest seen)
        rw [hf]
        simp

/-- The code's field splitting is the specification's. -/
theorem splitCSVLine_eq_fieldsSpec (s : Str) : splitCSVLine s = fieldsSpec s := by
  unfold splitCSVLine fieldsSpec
  rw [splitLoop_eq_fieldsFrom s 0 [] [] false (by decide), ← cutsFrom_zero, ← fieldsFrom_eq]
  obtain ⟨f, fs, hf⟩ := List.exists_cons_of_ne_nil (fieldsFrom_ne_nil s 0)
  rw [hf]
  simp

/-! ## The loops of `trimInPlace` -/

/-- With fuel for every remaining index the forward loop of `trimInPlace` stops
because its condition fails, not because the fuel ran out. -/
theorem trimScanFwd_exit (s : Str) (fuel i : Nat) (hf : s.length ≤ fuel + i) :
    i ≤ trimScanFwd s fuel i ∧
      ∀ c, s[trimScanFwd s fuel i]? = some c → isspace c = false := by
  induction fuel generalizing i with
  | zero =>
    refine ⟨Nat.le_refl _, ?_⟩
    intro c hc
    have hnone : s[i]? = none := List.getElem?_eq_none (by omega)
    simp only [trimScanFwd] at hc
    rw [hnone] at hc
    exact absurd hc (by simp)
  | succ fuel ih =>
    unfold trimScanFwd
    cases hsi : s[i]? with
    | none =>
      refine ⟨Nat.le_refl _, ?_⟩
      intro c hc
      simp only at hc
      rw [hsi] at hc
      exact absurd hc (by simp)
    | some c0 =>
      simp only
      by_cases hsp : isspace c0 = true
      · rw [if_pos hsp]
        obtain ⟨h1, h2⟩ := ih (i + 1) (by omega)
        exact ⟨by omega, h2⟩
      · rw [if_neg hsp]
        refine ⟨Nat.le_refl _, ?_⟩
        intro c hc
        rw [hsi] at hc
        rw [← Option.some.inj hc]
        simpa using hsp

/-- With fuel for every remaining index the backward loop of `trimInPlace`
stops because its condition fails, not because the fuel ran out. -/
theorem trimScanBwd_exit (s : Str) (i fuel j : Nat) (hf : j ≤ fuel + i) :
    trimScanBwd s i fuel j ≤ j ∧ (i ≤ j → i ≤ trimScanBwd s i fuel j) ∧
      (i < trimScanBwd s i fuel j →
        ∀ c, s[trimScanBwd s i fuel j - 1]? = some c → isspace c = false) := by
  induction fuel generalizing j with
  | zero =>
    simp only [trimScanBwd]
    exact ⟨Nat.le_refl _, fun h => h, fun h => absurd h (by omega)⟩
  | succ fuel ih =>
    unfold trimScanBwd
    by_cases hji : j > i
    · rw [if_pos hji]
      cases hsj : s[j - 1]? with
      | none =>
        simp only
        refine ⟨Nat.le_refl _, fun h => h, ?_⟩
        intro _ c hc
        rw [hsj] at hc
        exact absurd hc (by simp)
      | some c0 =>
        simp only
        by_cases hsp : isspace c0 = true
        · rw [if_pos hsp]
          obtain ⟨h1, h2, h3⟩ := ih (j - 1) (by omega)
          exact ⟨by omega, fun _ => h2 (by omega), h3⟩
        · rw [if_neg hsp]
          refine ⟨Nat.le_refl _, fun h => h, ?_⟩
          intro _ c hc
          rw [hsj] at hc
          rw [← Option.some.inj hc]
          simpa using hsp
    · rw [if_neg hji]
      exact ⟨Nat.le_refl _, fun h => h, fun h => absurd h hji⟩

theorem trimScanFwd_le (s : Str) (fuel i : Nat) (h : i ≤ s.length) :
    trimScanFwd s fuel i ≤ s.length := by
  induction fuel generalizing i with
  | zero => exact h
  | succ fuel ih =>
    unfold trimScanFwd
    cases hsi : s[i]? with
    | none => exact h
    | some c0 =>
      have hlt : i < s.length := by
        by_contra hge
        rw [List.getElem?_eq_none (by omega)] at hsi
        exact absurd hsi (by simp)
      simp only
      split_ifs
      · exact ih (i + 1) hlt
      · exact h

/-- Each loop of `trimInPlace` ends on its own condition with the fuel given. -/
theorem trimInPlace_loops_exit (s : Str) :
    (∀ c, s[trimScanFwd s s.length 0]? = some c → isspace c = false) ∧
    trimScanFwd s s.length 0 ≤ trimScanBwd s (trimScanFwd s s.length 0) s.length s.length ∧
    trimScanBwd s (trimScanFwd s s.length 0) s.length s.length ≤ s.length ∧
    (trimScanFwd s s.length 0 < trimScanBwd s (trimScanFwd s s.length 0) s.length s.length →
      ∀ c, s[trimScanBwd s (trimScanFwd s s.length 0) s.length s.length - 1]? = some c →
        isspace c = false) := by
  have hfwd := trimScanFwd_exit s s.length 0 (by omega)
  have hle : trimScanFwd s s.length 0 ≤ s.length := trimScanFwd_le s s.length 0 (Nat.zero_le _)
  have hbwd := trimScanBwd_exit s (trimScanFwd s s.length 0) s.length s.length (by omega)
  exact ⟨hfwd.2, hbwd.2.1 hle, hbwd.1, hbwd.2.2⟩

theorem trimScanFwd_eq (rest pre : Str) (fuel : Nat) (hf : rest.length ≤ fuel) :
    trimScanFwd (pre ++ rest) fuel pre.length =
      pre.length + (rest.takeWhile isspace).length := by
  induction rest generalizing pre fuel with
  | nil =>
    have hnone : (pre ++ ([] : Str))[pre.length]? = none :=
      List.getElem?_eq_none (by simp)
    cases fuel with
    | zero => simp [trimScanFwd]
    | succ fuel => simp [trimScanFwd, hnone]
  | cons c t ih =>
    cases fuel with
    | zero => simp at hf
    | succ fuel =>
      have hsome : (pre ++ c :: t)[pre.length]? = some c := by
        rw [List.getElem?_append_right (Nat.le_refl _)]; simp
      unfold trimScanFwd
      rw [hsome]
      simp only
      by_cases hc : isspace c = true
      · rw [if_pos hc, List.takeWhile_cons_of_pos hc]
        have h := ih (pre ++ [c]) fuel (by simpa using hf)
        simp only [List.append_assoc, List.singleton_append, List.length_append,
          List.length_singleton] at h
        rw [h, List.length_cons]
        omega
      · rw [if_neg hc, List.takeWhile_cons_of_neg hc]
        simp

theorem trimScanBwd_eq (fuel : Nat) (m pre post : Str) (hf : m.length ≤ fuel) :
    trimScanBwd (pre ++ m ++ post) pre.length fuel (pre.length + m.length) =
      pre.length + (m.rdropWhile isspace).length := by
  induction fuel generalizing m post with
  | zero =>
    have hm : m = [] := List.length_eq_zero.mp (by omega)
    subst hm
    simp [trimScanBwd]
  | succ fuel ih =>
    rcases List.eq_nil_or_concat m with rfl | ⟨m', c, rfl⟩
    · simp [trimScanBwd]
    · simp only [List.concat_eq_append] at hf ⊢
      have hj : pre.length + (m' ++ [c]).length > pre.length := by simp
      have e : pre ++ (m' ++ [c]) ++ post = pre ++ m' ++ (c :: post) := by simp
      have e2 : pre.length + (m' ++ [c]).length - 1 = pre.length + m'.length := by simp
      have hsome : (pre ++ (m' ++ [c]) ++ post)[pre.length + (m' ++ [c]).length - 1]? =
          some c := by
        rw [e, e2, List.getElem?_append_right (by simp)]
        simp
      unfold trimScanBwd
      rw [if_pos hj, hsome]
      simp only
      by_cases hc : isspace c = true
      · rw [if_pos hc, List.rdropWhile_concat_pos _ _ _ hc, e2, e]
        exact ih m' (c :: post) (by simpa using hf)
      · rw [if_neg hc, List.rdropWhile_concat_neg _ _ _ hc]

/-- The code's trimming is the specification's. -/
theorem trimInPlace_eq_trimSpec (s : Str) : trimInPlace s = trimSpec s := by
  have hi : trimScanFwd s s.length 0 = (s.takeWhile isspace).length := by
    have h := trimScanFwd_eq s [] s.length (Nat.le_refl _)
    simpa using h
  have hsplit : s.takeWhile isspace ++ s.dropWhile isspace = s :=
    List.takeWhile_append_dropWhile _ _
  have hlen : s.length = (s.takeWhile isspace).length + (s.dropWhile isspace).length := by
    conv_lhs => rw [← hsplit]
    exact List.length_append _ _
  have hj : trimScanBwd s (s.takeWhile isspace).length s.length s.length =
      (s.takeWhile isspace).length + ((s.dropWhile isspace).rdropWhile isspace).length := by
    have h := trimScanBwd_eq s.length (s.dropWhile isspace) (s.takeWhile isspace) []
      (by omega)
    rw [List.append_nil, hsplit, ← hlen] at h
    exact h
  have hpre : (s.dropWhile isspace).rdropWhile isspace <+: s.dropWhile isspace :=
    List.rdropWhile_prefix _ _
  have hdrop : s.drop (s.takeWhile isspace).length = s.dropWhile isspace := by
    have h := List.drop_left (s.takeWhile isspace) (s.dropWhile isspace)
    rw [hsplit] at h
    exact h
  unfold trimInPlace trimSpec
  simp only [hi, hj]
  split_ifs with h
  · obtain ⟨h0, h1⟩ := h
    have htw : s.takeWhile isspace = [] := List.length_eq_zero.mp h0
    have hdw : s.dropWhile isspace = s := by
      have h := hsplit
      rw [htw, List.nil_append] at h
      exact h
    rw [hdw] at hpre h1 ⊢
    exact (hpre.eq_of_length (by omega)).symm
  · unfold substr
    rw [hdrop, Nat.add_sub_cancel_left]
    exact (List.prefix_iff_eq_take.mp hpre).symm

theorem rdropWhile_split (p : Char → Bool) (l : Str) :
    ∃ suf, l = l.rdropWhile p ++ suf ∧ ∀ c ∈ suf, p c = true := by
  induction l using List.reverseRecOn with
  | nil => exact ⟨[], by simp, by simp⟩
  | append_singleton l x ih =>
    by_cases hx : p x = true
    · obtain ⟨suf, he, hs⟩ := ih
      refine ⟨suf ++ [x], ?_, ?_⟩
      · rw [List.rdropWhile_concat_pos _ _ _ hx, ← List.append_assoc, ← he]
      · intro c hc
        rcases List.mem_append.mp hc with h | h
        · exact hs c h
        · rw [List.mem_singleton.mp h]; exact hx
    · exact ⟨[], by rw [List.rdropWhile_concat_neg _ _ _ hx, List.append_nil], by simp⟩

theorem trimSpec_trimmed (s : Str) : Trimmed (trimSpec s) := by
  unfold Trimmed
  by_cases ht : trimSpec s = []
  · exact Or.inl ht
  · right
    have hpre : trimSpec s <+: s.dropWhile isspace := List.rdropWhile_prefix _ _
    obtain ⟨r, hr⟩ := hpre
    have hlast := List.rdropWhile_last_not isspace (s.dropWhile isspace) ht
    obtain ⟨a, t', hat⟩ := List.exists_cons_of_ne_nil ht
    have hd : s.dropWhile isspace ≠ [] := by
      rw [← hr, hat]; simp
    have hhead := List.head_dropWhile_not isspace s hd
    have hda : (s.dropWhile isspace).head hd = a := by
      have : (s.dropWhile isspace).head? = some a := by rw [← hr, hat]; rfl
      rw [List.head?_eq_head hd] at this
      exact Option.some.inj this
    refine ⟨a, (trimSpec s).getLast ht, by rw [hat]; rfl, List.getLast?_eq_getLast _ ht, ?_, ?_⟩
    · rw [← hda]; exact hhead
    · simpa using hlast

theorem trimSpec_eq_self_iff (t : Str) : trimSpec t = t ↔ Trimmed t := by
  constructor
  · intro h
    rw [← h]
    exact trimSpec_trimmed t
  · rintro (rfl | ⟨a, b, ha, hb, hna, hnb⟩)
    · rfl
    · unfold trimSpec
      have hne : t ≠ [] := by
        rintro rfl
        simp at ha
      have hd : t.dropWhile isspace = t := by
        obtain ⟨x, t', rfl⟩ := List.exists_cons_of_ne_nil hne
        have hx : x = a := by simpa using ha
        rw [List.dropWhile_cons_of_neg (by rw [hx, hna]; simp)]
      rw [hd, List.rdropWhile_eq_self_iff]
      intro hl
      have : t.getLast hl = b := by
        rw [List.getLast?_eq_getLast _ hl] at hb
        exact Option.some.inj hb
      rw [this, hnb]
      simp

theorem trimSpec_split (s : Str) :
    ∃ pre suf, s = pre ++ trimSpec s ++ suf ∧ (∀ c ∈ pre, isspace c = true) ∧
      ∀ c ∈ suf, isspace c = true := by
  obtain ⟨suf, he, hs⟩ := rdropWhile_split isspace (s.dropWhile isspace)
  refine ⟨s.takeWhile isspace, suf, ?_, fun c hc => List.mem_takeWhile_imp hc, hs⟩
  unfold trimSpec
  rw [List.append_assoc, ← he, List.takeWhile_append_dropWhile]

/-! ## `std::sort` -/

section SortTheory
variable {α : Type} {comp : α → α → Bool}

theorem sortInsert_perm (a : α) (l : List α) : (sortInsert comp a l).Perm (a :: l) := by
  induction l with
  | nil => exact List.Perm.refl _
  | cons b l ih =>
    unfold sortInsert
    split_ifs
    · exact List.Perm.refl _
    · exact (List.Perm.cons b ih).trans (List.Perm.swap a b l)

theorem sort_perm (l : List α) : (sort comp l).Perm l := by
  induction l with
  | nil => exact List.Perm.refl _
  | cons a l ih => exact (sortInsert_perm a _).trans (List.Perm.cons a ih)

theorem sortInsert_ordered (hc : StrictTotal comp) (a : α) (l : List α)
    (hl : Ordered comp l) : Ordered comp (sortInsert comp a l) := by
  induction l with
  | nil => simp [sortInsert, Ordered]
  | cons b l ih =>
    unfold Ordered at hl ih ⊢
    rw [List.pairwise_cons] at hl
    unfold sortInsert
    by_cases hab : comp a b = true
    · rw [if_pos hab]
      refine List.pairwise_cons.mpr ⟨?_, List.pairwise_cons.mpr hl⟩
      intro y hy
      rcases List.mem_cons.mp hy with rfl | hy
      · exact hc.asymm _ _ hab
      · by_contra hya
        have h1 : comp y a = true := by simpa using hya
        have h2 := hc.trans _ _ _ h1 hab
        rw [hl.1 y hy] at h2
        exact Bool.false_ne_true h2
    · rw [if_neg hab]
      refine List.pairwise_cons.mpr ⟨?_, ih hl.2⟩
      intro y hy
      rcases List.mem_cons.mp ((sortInsert_perm a l).subset hy) with rfl | hy
      · simpa using hab
      · exact hl.1 y hy

theorem sort_ordered (hc : StrictTotal comp) (l : List α) : Ordered comp (sort comp l) := by
  induction l with
  | nil => exact List.Pairwise.nil
  | cons a l ih => exact sortInsert_ordered hc a _ ih

/-- Two ordered rearrangements of the same entries are the same list. -/
theorem ordered_perm_unique (hc : StrictTotal comp) {l₁ l₂ : List α} (hp : l₁.Perm l₂)
    (h₁ : Ordered comp l₁) (h₂ : Ordered comp l₂) : l₁ = l₂ := by
  haveI : IsAntisymm α (fun a b => comp b a = false) := ⟨fun a b hab hba => hc.total a b hba hab⟩
  exact List.eq_of_perm_of_sorted hp h₁ h₂

theorem sort_unique (hc : StrictTotal comp) {l out : List α} (hp : out.Perm l)
    (ho : Ordered comp out) : out = sort comp l :=
  ordered_perm_unique hc (hp.trans (sort_perm l).symm) ho (sort_ordered hc l)

theorem sort_congr (hc : StrictTotal comp) {l₁ l₂ : List α} (hp : l₁.Perm l₂) :
    sort comp l₁ = sort comp l₂ :=
  sort_unique hc ((sort_perm l₁).trans hp) (sort_ordered hc l₁)

theorem truncate_eq_take (k : Int) (res : List α) : truncate k res = res.take k.toNat := by
  unfold truncate
  split_ifs with h
  · rfl
  · exact (List.take_of_length_le (by omega)).symm

end SortTheory

/-! ## The comparators -/

theorem strLess_irrefl (a : Str) : strLess a a = false := by
  induction a with
  | nil => rfl
  | cons x xs ih => simp [strLess, ih]

theorem strLess_asymm : ∀ a b : Str, strLess a b = true → strLess b a = false
  | [], [], _ => rfl
  | [], _ :: _, _ => rfl
  | _ :: _, [], h => by simp [strLess] at h
  | x :: xs, y :: ys, h => by
    unfold strLess at h ⊢
    by_cases h1 : x.toNat < y.toNat
    · rw [if_neg (by omega), if_pos h1]
    · rw [if_neg h1] at h
      by_cases h2 : y.toNat < x.toNat
      · rw [if_pos h2] at h; exact absurd h (by simp)
      · rw [if_neg h2] at h
        rw [if_neg h2, if_neg h1]
        exact strLess_asymm xs ys h

theorem strLess_trans : ∀ a b c : Str, strLess a b = true → strLess b c = true →
    strLess a c = true
  | [], _, [], _, h2 => by cases ‹Str› <;> simp [strLess] at h2
  | [], _, _ :: _, _, _ => rfl
  | _ :: _, [], _, h1, _ => by simp [strLess] at h1
  | _ :: _, _ :: _, [], _, h2 => by simp [strLess] at h2
  | x :: xs, y :: ys, z :: zs, h1, h2 => by
    unfold strLess at h1 h2 ⊢
    by_cases hxy : x.toNat < y.toNat
    · by_cases hyz : y.toNat < z.toNat
      · rw [if_pos (by omega)]
      · rw [if_neg hyz] at h2
        by_cases hzy : z.toNat < y.toNat
        · rw [if_pos hzy] at h2; exact absurd h2 (by simp)
        · rw [if_pos (by omega)]
    · rw [if_neg hxy] at h1
      by_cases hyx : y.toNat < x.toNat
      · rw [if_pos hyx] at h1; exact absurd h1 (by simp)
      · rw [if_neg hyx] at h1
        by_cases hyz : y.toNat < z.toNat
        · rw [if_pos (by omega)]
        · rw [if_neg hyz] at h2
          by_cases hzy : z.toNat < y.toNat
          · rw [if_pos hzy] at h2; exact absurd h2 (by simp)
          · rw [if_neg hzy] at h2
            rw [if_neg (by omega), if_neg (by omega)]
            exact strLess_trans xs ys zs h1 h2

theorem char_eq_of_toNat_eq {x y : Char} (h : x.toNat = y.toNat) : x = y := by
  apply Char.ext
  apply UInt32.ext
  exact h

theorem strLess_total : ∀ a b : Str, strLess a b = false → strLess b a = false → a = b
  | [], [], _, _ => rfl
  | [], _ :: _, h, _ => by simp [strLess] at h
  | _ :: _, [], _, h => by simp [strLess] at h
  | x :: xs, y :: ys, h1, h2 => by
    unfold strLess at h1 h2
    by_cases hxy : x.toNat < y.toNat
    · rw [if_pos hxy] at h1; exact absurd h1 (by simp)
    · by_cases hyx : y.toNat < x.toNat
      · rw [if_pos hyx] at h2; exact absurd h2 (by simp)
      · rw [if_neg hxy, if_neg hyx] at h1
        rw [if_neg hyx, if_neg hxy] at h2
        rw [char_eq_of_toNat_eq (show x.toNat = y.toNat by omega), strLess_total xs ys h1 h2]

theorem zoneCountLess_iff (a b : ZoneCount) :
    zoneCountLess a b = true ↔
      a.count > b.count ∨ (a.count = b.count ∧ strLess a.zone b.zone = true) := by
  unfold zoneCountLess
  by_cases h : a.count = b.count
  · simp [h]
  · simp only [ne_eq, h, not_false_eq_true, if_true, decide_eq_true_eq, false_and, or_false]

theorem zoneCountLess_eq_false (a b : ZoneCount) :
    zoneCountLess a b = false ↔
      a.count < b.count ∨ (a.count = b.count ∧ strLess a.zone b.zone = false) := by
  rw [← Bool.not_eq_true, zoneCountLess_iff]
  by_cases h : a.count = b.count
  · simp [h]
  · simp only [h, false_and, or_false]; omega

theorem zoneCountLess_strictTotal : StrictTotal zoneCountLess where
  asymm a b h := by
    rw [zoneCountLess_eq_false]
    rcases (zoneCountLess_iff a b).mp h with h | ⟨h1, h2⟩
    · exact Or.inl h
    · exact Or.inr ⟨h1.symm, strLess_asymm _ _ h2⟩
  trans a b c h1 h2 := by
    rw [zoneCountLess_iff] at *
    rcases h1 with h1 | ⟨e1, s1⟩ <;> rcases h2 with h2 | ⟨e2, s2⟩
    · left; omega
    · left; omega
    · left; omega
    · exact Or.inr ⟨e1.trans e2, strLess_trans _ _ _ s1 s2⟩
  total a b h1 h2 := by
    rw [zoneCountLess_eq_false] at h1 h2
    rcases h1 with h1 | ⟨e1, s1⟩ <;> rcases h2 with h2 | ⟨e2, s2⟩
    · omega
    · omega
    · omega
    · cases a; cases b
      simp only at e1 s1 s2
      rw [e1, strLess_total _ _ s1 s2]

theorem slotCountLess_iff (a b : SlotCount) :
    slotCountLess a b = true ↔
      a.count > b.count ∨ (a.count = b.count ∧ strLess a.zone b.zone = true) ∨
        (a.count = b.count ∧ a.zone = b.zone ∧ a.hour < b.hour) := by
  unfold slotCountLess
  by_cases h : a.count = b.count
  · by_cases hz : a.zone = b.zone
    · simp [h, hz, strLess_irrefl]
    · simp [h, hz]
  · simp only [ne_eq, h, not_false_eq_true, if_true, decide_eq_true_eq, false_and, or_false]

theorem slotCountLess_eq_false (a b : SlotCount) :
    slotCountLess a b = false ↔
      a.count < b.count ∨ (a.count = b.count ∧ a.zone ≠ b.zone ∧ strLess a.zone b.zone = false) ∨
        (a.count = b.count ∧ a.zone = b.zone ∧ b.hour ≤ a.hour) := by
  rw [← Bool.not_eq_true, slotCountLess_iff]
  by_cases h : a.count = b.count
  · by_cases hz : a.zone = b.zone
    · simp [h, hz, strLess_irrefl]
    · simp [h, hz]
  · simp only [h, false_and, or_false]; omega

theorem slotCountLess_strictTotal : StrictTotal slotCountLess where
  asymm a b h := by
    rw [slotCountLess_eq_false]
    rcases (slotCountLess_iff a b).mp h with h | ⟨h1, h2⟩ | ⟨h1, h2, h3⟩
    · exact Or.inl h
    · refine Or.inr (Or.inl ⟨h1.symm, ?_, strLess_asymm _ _ h2⟩)
      intro e; rw [e, strLess_irrefl] at h2; exact Bool.false_ne_true h2
    · exact Or.inr (Or.inr ⟨h1.symm, h2.symm, le_of_lt h3⟩)
  trans a b c h1 h2 := by
    rw [slotCountLess_iff] at *
    rcases h1 with h1 | ⟨e1, s1⟩ | ⟨e1, z1, r1⟩ <;>
      rcases h2 with h2 | ⟨e2, s2⟩ | ⟨e2, z2, r2⟩
    · left; omega
    · left; omega
    · left; omega
    · left; omega
    · exact Or.inr (Or.inl ⟨e1.trans e2, strLess_trans _ _ _ s1 s2⟩)
    · exact Or.inr (Or.inl ⟨e1.trans e2, z2 ▸ s1⟩)
    · left; omega
    · exact Or.inr (Or.inl ⟨e1.trans e2, z1 ▸ s2⟩)
    · exact Or.inr (Or.inr ⟨e1.trans e2, z1.trans z2, lt_trans r1 r2⟩)
  total a b h1 h2 := by
    rw [slotCountLess_eq_false] at h1 h2
    cases a; cases b
    simp only at h1 h2
    rcases h1 with h1 | ⟨e1, n1, s1⟩ | ⟨e1, z1, r1⟩ <;>
      rcases h2 with h2 | ⟨e2, n2, s2⟩ | ⟨e2, z2, r2⟩
    · omega
    · omega
    · omega
    · omega
    · exact absurd (strLess_total _ _ s1 s2) n1
    · exact absurd z2.symm n1
    · omega
    · exact absurd z1.symm n2
    · rw [e1, z1, le_antisymm r2 r1]

/-! ## Ranked queries -/

theorem strLess_iff_lex (a b : Str) :
    strLess a b = true ↔ List.Lex (fun x y : Char => x.toNat < y.toNat) a b := by
  induction a generalizing b with
  | nil =>
    cases b with
    | nil => simp [strLess]
    | cons y ys => simp [strLess, List.Lex.nil]
  | cons x xs ih =>
    cases b with
    | nil => simp [strLess]
    | cons y ys =>
      unfold strLess
      by_cases h1 : x.toNat < y.toNat
      · simp only [h1, if_true, true_iff]
        exact List.Lex.rel h1
      · rw [if_neg h1]
        by_cases h2 : y.toNat < x.toNat
        · rw [if_pos h2]
          simp only [Bool.false_eq_true, false_iff]
          intro h
          cases h with
          | cons h => omega
          | rel h => omega
        · rw [if_neg h2, ih]
          have e : x = y := char_eq_of_toNat_eq (by omega)
          subst e
          constructor
          · exact List.Lex.cons
          · intro h
            cases h with
            | cons h => exact h
            | rel h => omega

section TopK
variable {α : Type} {comp : α → α → Bool}

theorem truncate_sublist (k : Int) (l : List α) : (truncate k l).Sublist l := by
  rw [truncate_eq_take]; exact List.take_sublist _ _

/-- What sorting and truncating gives, for any strict total comparator. -/
theorem topK_generic (hc : StrictTotal comp) (l : List α) (hnd : l.Nodup) (k : Int)
    (hk : 0 < k) :
    ((truncate k (sort comp l)).length : Int) = min k (l.length : Int) ∧
    (∀ e ∈ truncate k (sort comp l), e ∈ l) ∧
    (truncate k (sort comp l)).Pairwise (fun a b => comp a b = true) ∧
    (∀ e ∈ l, e ∉ truncate k (sort comp l) → ∀ r ∈ truncate k (sort comp l), comp r e = true) ∧
    ((l.length : Int) ≤ k → (truncate k (sort comp l)).Perm l) := by
  have hperm : (sort comp l).Perm l := sort_perm l
  have hlen : (sort comp l).length = l.length := hperm.length_eq
  have hnd' : (sort comp l).Nodup := hperm.nodup_iff.mpr hnd
  have hstrict : (sort comp l).Pairwise (fun a b => comp a b = true) := by
    have h := (sort_ordered hc l).and hnd'
    refine h.imp ?_
    intro a b hab
    by_contra hn
    exact hab.2 (hc.total a b (by simpa using hn) hab.1)
  refine ⟨?_, ?_, ?_, ?_, ?_⟩
  · rw [truncate_eq_take, List.length_take, hlen]
    omega
  · intro e he
    exact hperm.subset ((truncate_sublist k _).subset he)
  · exact hstrict.sublist (truncate_sublist k _)
  · intro e he hne r hr
    rw [truncate_eq_take] at hne hr
    have hes : e ∈ sort comp l := hperm.symm.subset he
    rw [← List.take_append_drop k.toNat (sort comp l)] at hes hstrict
    rcases List.mem_append.mp hes with h | h
    · exact absurd h hne
    · exact (List.pairwise_append.mp hstrict).2.2 r hr e h
  · intro hle
    rw [truncate_eq_take, List.take_of_length_le (by omega)]
    exact hperm

theorem topK_map_nodup {β : Type} (f : α → β) (l : List α) (k : Int)
    (h : (l.map f).Nodup) : ((truncate k (sort comp l)).map f).Nodup := by
  have h1 : ((sort comp l).map f).Nodup := ((sort_perm l).map f).nodup_iff.mpr h
  exact h1.sublist ((truncate_sublist k _).map f)

end TopK

theorem topZones_eq (g : Registry) (self : Nat) (d : Data) (k : Int)
    (hd : dataIf g self = some d) (hk : 0 < k) :
    topZones g self k =
      truncate k (sort zoneCountLess (d.zoneCounts.map fun kv => ZoneCount.mk kv.1 kv.2)) := by
  unfold topZones
  rw [if_neg (by omega), hd]

theorem topBusySlots_eq (g : Registry) (self : Nat) (d : Data) (k : Int)
    (hd : dataIf g self = some d) (hk : 0 < k) :
    topBusySlots g self k =
      truncate k (sort slotCountLess
        (d.slotCounts.map fun kv => SlotCount.mk kv.1.zone kv.1.hour kv.2)) := by
  unfold topBusySlots
  rw [if_neg (by omega), hd]

theorem truncate_nonpos {α : Type} (k : Int) (hk : k ≤ 0) (l : List α) : truncate k l = [] := by
  rw [truncate_eq_take, Int.toNat_eq_zero.mpr hk]; rfl

/-! ## Frequency tables -/

section Tables
variable {κ : Type} [DecidableEq κ]

theorem countOf_bump (key k : κ) (t : List (κ × Nat)) :
    countOf (bump key t) k = countOf t k + if k = key then 1 else 0 := by
  induction t with
  | nil =>
    by_cases h : key = k
    · simp [bump, countOf, h]
    · simp [bump, countOf, h, Ne.symm h]
  | cons e t ih =>
    obtain ⟨k0, c0⟩ := e
    unfold bump
    by_cases h0 : k0 = key
    · rw [if_pos h0]
      unfold countOf
      by_cases h1 : k0 = k
      · rw [if_pos h1, if_pos h1, if_pos (h1.symm.trans h0)]
      · rw [if_neg h1, if_neg h1, if_neg (fun h => h1 (h0.trans h.symm)), Nat.add_zero]
    · rw [if_neg h0]
      unfold countOf
      by_cases h1 : k0 = k
      · rw [if_pos h1, if_pos h1, if_neg (fun h => h0 (h1.trans h)), Nat.add_zero]
      · rw [if_neg h1, if_neg h1, ih]

theorem keys_bump (key k : κ) (t : List (κ × Nat)) :
    k ∈ (bump key t).map Prod.fst ↔ k = key ∨ k ∈ t.map Prod.fst := by
  induction t with
  | nil => simp [bump]
  | cons e t ih =>
    obtain ⟨k0, c0⟩ := e
    unfold bump
    by_cases h0 : k0 = key
    · rw [if_pos h0]
      simp only [List.map_cons, List.mem_cons]
      constructor
      · exact Or.inr
      · rintro (h | h)
        · exact Or.inl (h.trans h0.symm)
        · exact h
    · rw [if_neg h0]
      simp only [List.map_cons, List.mem_cons, ih]
      tauto

theorem tableOK_bump (key : κ) (t : List (κ × Nat)) (h : TableOK t) : TableOK (bump key t) := by
  induction t with
  | nil => exact ⟨by simp [bump], by simp [bump]⟩
  | cons e t ih =>
    obtain ⟨k0, c0⟩ := e
    obtain ⟨hn, hp⟩ := h
    rw [List.map_cons, List.nodup_cons] at hn
    have ht : TableOK t := ⟨hn.2, fun e he => hp e (List.mem_cons_of_mem _ he)⟩
    unfold bump
    by_cases h0 : k0 = key
    · rw [if_pos h0]
      refine ⟨by rw [List.map_cons, List.nodup_cons]; exact hn, ?_⟩
      intro e he
      rcases List.mem_cons.mp he with rfl | he
      · exact Nat.succ_pos _
      · exact hp e (List.mem_cons_of_mem _ he)
    · rw [if_neg h0]
      obtain ⟨in1, in2⟩ := ih ht
      refine ⟨?_, ?_⟩
      · rw [List.map_cons, List.nodup_cons]
        refine ⟨?_, in1⟩
        intro hmem
        rcases (keys_bump key k0 t).mp hmem with h | h
        · exact h0 h
        · exact hn.1 h
      · intro e he
        rcases List.mem_cons.mp he with rfl | he
        · exact hp _ (List.mem_cons_self _ _)
        · exact in2 e he

theorem countOf_pos_mem (t : List (κ × Nat)) (k : κ) (h : 0 < countOf t k) :
    (k, countOf t k) ∈ t := by
  induction t with
  | nil => simp [countOf] at h
  | cons e t ih =>
    obtain ⟨k0, c0⟩ := e
    unfold countOf at h ⊢
    by_cases h0 : k0 = k
    · rw [if_pos h0]; rw [h0]; exact List.mem_cons_self _ _
    · rw [if_neg h0] at h ⊢
      exact List.mem_cons_of_mem _ (ih h)

theorem tableOK_mem_iff (t : List (κ × Nat)) (h : TableOK t) (k : κ) (c : Nat) :
    (k, c) ∈ t ↔ 0 < c ∧ c = countOf t k := by
  constructor
  · intro hm
    refine ⟨h.2 _ hm, ?_⟩
    induction t with
    | nil => simp at hm
    | cons e t ih =>
      obtain ⟨k0, c0⟩ := e
      obtain ⟨hn, hp⟩ := h
      rw [List.map_cons, List.nodup_cons] at hn
      unfold countOf
      rcases List.mem_cons.mp hm with he | he
      · simp only [Prod.mk.injEq] at he
        rw [if_pos he.1.symm]; exact he.2
      · have hk : k0 ≠ k := by
          rintro rfl
          exact hn.1 (List.mem_map.mpr ⟨_, he, rfl⟩)
        rw [if_neg hk]
        exact ih ⟨hn.2, fun e he => hp e (List.mem_cons_of_mem _ he)⟩ he
  · rintro ⟨hc, rfl⟩
    exact countOf_pos_mem t k hc

theorem tableOK_key_iff (t : List (κ × Nat)) (h : TableOK t) (k : κ) :
    k ∈ t.map Prod.fst ↔ 0 < countOf t k := by
  constructor
  · intro hm
    obtain ⟨⟨k', c⟩, he, rfl⟩ := List.mem_map.mp hm
    have hc := (tableOK_mem_iff t h k' c).mp he
    show 0 < countOf t k'
    omega
  · intro hc
    exact List.mem_map.mpr ⟨_, countOf_pos_mem t k hc, rfl⟩

end Tables

/-! ## The registry -/

theorem ingestFile_other (g : Registry) (self other : Nat) (csv : Option (List Str))
    (h : other ≠ self) : ingestFile g self csv other = g other := by
  unfold ingestFile
  cases csv with
  | none => rfl
  | some lines =>
    cases lines with
    | nil => exact Function.update_noteq h _ _
    | cons a rest => exact Function.update_noteq h _ _

theorem runCalls_cons (g : Registry) (c : Nat × Option (List Str))
    (cs : List (Nat × Option (List Str))) :
    runCalls g (c :: cs) = runCalls (ingestFile g c.1 c.2) cs := rfl

theorem runCalls_never_opened (calls : List (Nat × Option (List Str))) (g : Registry)
    (self : Nat) (h : ∀ c ∈ calls, c.1 = self → c.2 = none) :
    runCalls g calls self = g self := by
  induction calls generalizing g with
  | nil => rfl
  | cons c cs ih =>
    rw [runCalls_cons, ih _ (fun c' hc' => h c' (List.mem_cons_of_mem _ hc'))]
    by_cases hs : c.1 = self
    · rw [h c (List.mem_cons_self _ _) hs]; rfl
    · exact ingestFile_other g c.1 self c.2 (Ne.symm hs)

theorem ingestFile_self (g : Registry) (self : Nat) (lines : List Str) :
    ingestFile g self (some lines) self =
      some (lines.tail.foldl ingestLine { zoneCounts := [], slotCounts := [] }) := by
  unfold ingestFile
  cases lines with
  | nil => exact Function.update_same _ _ _
  | cons a rest => exact Function.update_same _ _ _

theorem ingestFile_eq_update (g : Registry) (self : Nat) (lines : List Str) :
    ingestFile g self (some lines) = Function.update g self
      (some (lines.tail.foldl ingestLine { zoneCounts := [], slotCounts := [] })) := by
  unfold ingestFile
  cases lines <;> rfl

theorem topZones_congr (g g' : Registry) (self : Nat) (k : Int)
    (h : dataIf g self = dataIf g' self) : topZones g self k = topZones g' self k := by
  unfold topZones; rw [h]

theorem topBusySlots_congr (g g' : Registry) (self : Nat) (k : Int)
    (h : dataIf g self = dataIf g' self) : topBusySlots g self k = topBusySlots g' self k := by
  unfold topBusySlots; rw [h]

/-- Both queries are empty whenever `k ≤ 0`, and for every `k` at an address
that has no entry in the registry and at which no call of the run opened its
source. -/
theorem topK_empty (g : Registry) (calls : List (Nat × Option (List Str))) (self : Nat)
    (k : Int)
    (h : k ≤ 0 ∨ (dataIf g self = none ∧ ∀ c ∈ calls, c.1 = self → c.2 = none)) :
    topZones (runCalls g calls) self k = [] ∧ topBusySlots (runCalls g calls) self k = [] := by
  unfold topZones topBusySlots
  rcases h with h | ⟨h0, h⟩
  · rw [if_pos h, if_pos h]; exact ⟨rfl, rfl⟩
  · have hn : dataIf (runCalls g calls) self = none := by
      unfold dataIf; rw [runCalls_never_opened calls g self h]; exact h0
    rw [hn]; constructor <;> split_ifs <;> rfl

/-- The hypothesis of `topK_empty` is met with `k = 2` at address 7 of a run in
which the only call there could not open the source, while a call at address
3 ingested. -/
theorem topK_empty_witness :
    ((2 : Int) ≤ 0 ∨ (dataIf emptyRegistry 7 = none ∧
        ∀ c ∈ [((7 : Nat), (none : Option (List Str))), (3, some ["h".toList, ",a,, 05,,".toList])],
          c.1 = 7 → c.2 = none)) ∧
      topZones (runCalls emptyRegistry
        [(7, none), (3, some ["h".toList, ",a,, 05,,".toList])]) 7 2 = [] ∧
      topBusySlots (runCalls emptyRegistry
        [(7, none), (3, some ["h".toList, ",a,, 05,,".toList])]) 7 2 = [] :=
  have h : (2 : Int) ≤ 0 ∨ (dataIf emptyRegistry 7 = none ∧
        ∀ c ∈ [((7 : Nat), (none : Option (List Str))), (3, some ["h".toList, ",a,, 05,,".toList])],
          c.1 = 7 → c.2 = none) :=
    Or.inr ⟨rfl, by simp⟩
  ⟨h, topK_empty emptyRegistry _ 7 2 h⟩

/-- A call of `ingestFile` whose source cannot be opened returns the registry
unchanged, so both queries give the same results after the call as before
it; at an address with no entry they are still empty. -/
theorem ingestFile_unopenable (g : Registry) (self : Nat) (k : Int) :
    ingestFile g self none = g ∧
    topZones (ingestFile g self none) self k = topZones g self k ∧
    topBusySlots (ingestFile g self none) self k = topBusySlots g self k ∧
    topZones (ingestFile (Function.update g self none) self none) self k = [] ∧
    topBusySlots (ingestFile (Function.update g self none) self none) self k = [] := by
  have h : dataIf (Function.update g self none) self = none := Function.update_same _ _ _
  refine ⟨rfl, rfl, rfl, ?_, ?_⟩
  · show topZones (Function.update g self none) self k = []
    unfold topZones; rw [h]; split_ifs <;> rfl
  · show topBusySlots (Function.update g self none) self k = []
    unfold topBusySlots; rw [h]; split_ifs <;> rfl

/-! ## Records and the loop body of `ingestFile` -/

theorem dropWhile_first (pre rest : Str) (h : ' ' ∉ pre) :
    (pre ++ ' ' :: rest).dropWhile (fun c => c != ' ') = ' ' :: rest := by
  induction pre with
  | nil => simp [List.dropWhile]
  | cons a t ih =>
    have ha : a ≠ ' ' := fun e => h (by rw [e]; exact List.mem_cons_self _ _)
    have ht : ' ' ∉ t := fun hm => h (List.mem_cons_of_mem _ hm)
    simp only [List.cons_append, List.dropWhile_cons, bne_iff_ne, ne_eq, ha, not_false_eq_true,
      if_true]
    exact ih ht

theorem dropWhile_none (dt : Str) (h : ' ' ∉ dt) :
    dt.dropWhile (fun c => c != ' ') = [] := by
  rw [List.dropWhile_eq_nil_iff]
  intro c hc
  have : c ≠ ' ' := fun e => h (e ▸ hc)
  simpa using this

theorem hourOf_two (pre rest : Str) (d1 d2 : Char) (hpre : ' ' ∉ pre) :
    hourOf (pre ++ ' ' :: d1 :: d2 :: rest) =
      if isdigit d1 = true ∧ isdigit d2 = true ∧ 10 * (d1.toNat - 48) + (d2.toNat - 48) ≤ 23
      then some (10 * (d1.toNat - 48) + (d2.toNat - 48)) else none := by
  unfold hourOf
  rw [dropWhile_first pre _ hpre]

theorem hourOf_short (dt : Str)
    (h : ∀ pre d1 d2 rest, dt = pre ++ ' ' :: d1 :: d2 :: rest → ' ' ∈ pre) :
    hourOf dt = none := by
  unfold hourOf
  cases hf : find dt ' ' with
  | none => rw [dropWhile_none dt (find_eq_none.mp hf)]
  | some sp =>
    obtain ⟨pre, rest, he, hn, -⟩ := find_eq_some.mp hf
    rw [he, dropWhile_first pre rest hn]
    match rest, he with
    | [], _ => rfl
    | [_], _ => rfl
    | d1 :: d2 :: r, he => exact absurd (h pre d1 d2 r he) hn

/-- The code's hour extraction and the specification's agree. -/
theorem parseHour_eq_hourOf (dt : Str) :
    parseHour dt = match hourOf dt with
      | some h => (h : Int)
      | none => -1 := by
  rcases parseHour_cases dt with ⟨pre, d1, d2, rest, he, hpre⟩ | ⟨hall, hm⟩
  · rw [he, parseHour_two pre rest d1 d2 hpre, hourOf_two pre rest d1 d2 hpre]
    split_ifs <;> rfl
  · rw [hm, hourOf_short dt hall]

theorem hourOf_eq_some_iff (dt : Str) (h : Nat) : hourOf dt = some h ↔ HourShape dt h := by
  rw [← parseHour_eq_iff, parseHour_eq_hourOf]
  cases hourOf dt with
  | none => simp
  | some n => simp

theorem hourOf_le (dt : Str) (h : Nat) (hh : hourOf dt = some h) : h ≤ 23 := by
  obtain ⟨_, _, _, _, _, _, _, _, _, hb⟩ := (hourOf_eq_some_iff dt h).mp hh
  exact hb

/-- The record of a line, computed with the code's splitting and trimming. -/
theorem recordOf_eq_code (line : Str) :
    recordOf line = match splitCSVLine line with
      | [_, f1, _, f3, _, _] =>
        if trimInPlace f1 = [] then none
        else (hourOf (trimInPlace f3)).map (fun h => (trimInPlace f1, h))
      | _ => none := by
  unfold recordOf
  rw [splitCSVLine_eq_fieldsSpec]
  simp only [trimInPlace_eq_trimSpec]

/-- The loop body of `ingestFile` counts exactly the record of the line. -/
theorem ingestLine_eq (d : Data) (line : Str) :
    ingestLine d line = match recordOf line with
      | none => d
      | some r =>
        { zoneCounts := bump r.1 d.zoneCounts
          slotCounts := bump ⟨r.1, (r.2 : Int)⟩ d.slotCounts } := by
  rw [recordOf_eq_code]
  unfold ingestLine
  cases line with
  | nil => rfl
  | cons ch rest =>
    simp only [List.isEmpty_cons, Bool.false_eq_true, if_false]
    generalize splitCSVLine (ch :: rest) = fields
    match fields with
    | [] => rfl
    | [_] => rfl
    | [_, _] => rfl
    | [_, _, _] => rfl
    | [_, _, _, _] => rfl
    | [_, _, _, _, _] => rfl
    | _ :: _ :: _ :: _ :: _ :: _ :: _ :: _ => simp
    | [f0, f1, f2, f3, f4, f5] =>
      simp only [List.length_cons, List.length_nil, ne_eq, not_true_eq_false, if_false,
        List.getD_cons_succ, List.getD_cons_zero, List.isEmpty_eq_true, zero_add,
        Nat.reduceAdd]
      by_cases hz : trimInPlace f1 = []
      · simp [hz]
      · by_cases hdt : trimInPlace f3 = []
        · have hnone : hourOf ([] : Str) = none := rfl
          simp [hz, hdt, hnone]
        · rw [if_neg (by tauto), if_neg hz, parseHour_eq_hourOf]
          cases hourOf (trimInPlace f3) with
          | none => simp
          | some h => simp

/-! ## The invariant of `ingestFile` -/

theorem sum_slot_indicator (z z0 : Str) (n0 : Nat) (hn : n0 ≤ 23) :
    (∑ h in Finset.range 24,
      if (SlotKey.mk z (h : Int)) = SlotKey.mk z0 (n0 : Int) then 1 else 0) =
      if z = z0 then 1 else 0 := by
  by_cases hz : z = z0
  · subst hz
    rw [if_pos rfl]
    have : ∀ h : Nat, (SlotKey.mk z (h : Int) = SlotKey.mk z (n0 : Int)) ↔ n0 = h := by
      intro h
      simp only [SlotKey.mk.injEq, true_and, Nat.cast_inj]
      exact eq_comm
    simp only [this]
    rw [Finset.sum_ite_eq, if_pos (Finset.mem_range.mpr (by omega))]
  · rw [if_neg hz]
    apply Finset.sum_eq_zero
    intro h _
    rw [if_neg]
    intro e
    exact hz (SlotKey.mk.inj e).1

theorem dataOK_cleared : DataOK { zoneCounts := [], slotCounts := [] } := by
  refine ⟨⟨List.nodup_nil, by simp⟩, ⟨List.nodup_nil, by simp⟩, by simp, ?_⟩
  intro z
  simp [countOf]

theorem dataOK_ingestLine (d : Data) (line : Str) (h : DataOK d) :
    DataOK (ingestLine d line) := by
  rw [ingestLine_eq]
  cases hr : recordOf line with
  | none => exact h
  | some r =>
    obtain ⟨z0, n0⟩ := r
    have hn : n0 ≤ 23 := by
      rw [recordOf_eq_code] at hr
      split at hr
      · split_ifs at hr
        obtain ⟨h', hh, he⟩ := Option.map_eq_some'.mp hr
        simp only [Prod.mk.injEq] at he
        rw [← he.2]
        exact hourOf_le _ _ hh
      · exact absurd hr (by simp)
    obtain ⟨hA, hB, hH, hS⟩ := h
    refine ⟨tableOK_bump _ _ hA, tableOK_bump _ _ hB, ?_, ?_⟩
    · intro key hkey
      rcases (keys_bump _ key d.slotCounts).mp hkey with rfl | hk
      · exact ⟨by simp, by simp only; omega⟩
      · exact hH key hk
    · intro z
      simp only [countOf_bump, Finset.sum_add_distrib, hS z, sum_slot_indicator z z0 n0 hn]

theorem dataOK_foldl (lines : List Str) (d : Data) (h : DataOK d) :
    DataOK (lines.foldl ingestLine d) := by
  induction lines generalizing d with
  | nil => exact h
  | cons l ls ih => exact ih _ (dataOK_ingestLine d l h)

theorem zoneCount_foldl (lines : List Str) (d : Data) (z : Str) :
    countOf (lines.foldl ingestLine d).zoneCounts z =
      countOf d.zoneCounts z +
        lines.countP (fun l => decide ((recordOf l).map Prod.fst = some z)) := by
  induction lines generalizing d with
  | nil => simp
  | cons l ls ih =>
    rw [List.foldl_cons, ih, ingestLine_eq, List.countP_cons]
    cases hr : recordOf l with
    | none => simp
    | some r =>
      simp only [countOf_bump, Option.map_some', Option.some.injEq, decide_eq_true_eq]
      by_cases hz : r.1 = z
      · rw [if_pos hz.symm, if_pos hz]; omega
      · rw [if_neg (Ne.symm hz), if_neg hz]; omega

theorem slotCount_foldl (lines : List Str) (d : Data) (z : Str) (n : Nat) :
    countOf (lines.foldl ingestLine d).slotCounts ⟨z, (n : Int)⟩ =
      countOf d.slotCounts ⟨z, (n : Int)⟩ +
        lines.countP (fun l => decide (recordOf l = some (z, n))) := by
  induction lines generalizing d with
  | nil => simp
  | cons l ls ih =>
    rw [List.foldl_cons, ih, ingestLine_eq, List.countP_cons]
    cases hr : recordOf l with
    | none => simp
    | some r =>
      simp only [countOf_bump, Option.some.injEq, decide_eq_true_eq]
      by_cases hz : r = (z, n)
      · rw [if_pos (by rw [hz]), if_pos hz]; omega
      · have hne : ¬ (SlotKey.mk z (n : Int) = SlotKey.mk r.1 (r.2 : Int)) := by
          intro e
          obtain ⟨e1, e2⟩ := SlotKey.mk.inj e
          exact hz (Prod.ext e1.symm (by exact_mod_cast e2.symm))
        rw [if_neg hne, if_neg hz]; omega

/-- What `DataOK` says about the keys of the two tables. -/
theorem dataOK_keys (d : Data) (h : DataOK d) (z : Str) :
    z ∈ d.zoneCounts.map Prod.fst ↔
      ∃ hr : Int, (SlotKey.mk z hr) ∈ d.slotCounts.map Prod.fst := by
  obtain ⟨hA, hB, hH, hS⟩ := h
  rw [tableOK_key_iff _ hA, ← hS z]
  constructor
  · intro hpos
    obtain ⟨n, -, hn⟩ := Finset.exists_ne_zero_of_sum_ne_zero (Nat.pos_iff_ne_zero.mp hpos)
    exact ⟨n, (tableOK_key_iff _ hB _).mpr (Nat.pos_of_ne_zero hn)⟩
  · rintro ⟨hr, hmem⟩
    obtain ⟨h0, h23⟩ := hH _ hmem
    simp only at h0 h23
    obtain ⟨n, rfl⟩ := Int.eq_ofNat_of_zero_le h0
    have hpos := (tableOK_key_iff _ hB _).mp hmem
    have hle : countOf d.slotCounts ⟨z, (n : Int)⟩ ≤
        ∑ h in Finset.range 24, countOf d.slotCounts ⟨z, (h : Int)⟩ :=
      @Finset.single_le_sum Nat Nat _ (fun h : Nat => countOf d.slotCounts ⟨z, (h : Int)⟩)
        (Finset.range 24) (fun _ _ => Nat.zero_le _) n (Finset.mem_range.mpr (by omega))
    omega

theorem consistent_ingestFile (g : Registry) (self : Nat) (csv : Option (List Str))
    (h : Consistent g) : Consistent (ingestFile g self csv) := by
  cases csv with
  | none => exact h
  | some lines =>
    intro other d hd z
    by_cases ho : other = self
    · subst ho
      rw [ingestFile_self] at hd
      have hok : DataOK d := by
        rw [← Option.some.inj hd]
        exact dataOK_foldl _ _ dataOK_cleared
      exact ⟨hok.2.2.2 z, hok.2.2.1, dataOK_keys d hok z⟩
    · rw [ingestFile_other g self other _ ho] at hd
      exact h other d hd z

theorem recordOf_eq_some_iff (l z : Str) (h : Nat) :
    recordOf l = some (z, h) ↔
      ∃ f0 f1 f2 f3 f4 f5, splitCSVLine l = [f0, f1, f2, f3, f4, f5] ∧
        trimInPlace f1 ≠ [] ∧ z = trimInPlace f1 ∧ HourShape (trimInPlace f3) h := by
  rw [recordOf_eq_code]
  split
  · rename_i f0 f1 f2 f3 f4 f5 hsplit
    rw [hsplit]
    by_cases hz : trimInPlace f1 = []
    · rw [if_pos hz]
      constructor
      · intro hc; exact absurd hc (by simp)
      · rintro ⟨g0, g1, g2, g3, g4, g5, he, hne, -, -⟩
        simp only [List.cons.injEq, and_true] at he
        exact absurd (he.2.1 ▸ hz) hne
    · rw [if_neg hz, Option.map_eq_some']
      constructor
      · rintro ⟨n, hn, he⟩
        simp only [Prod.mk.injEq] at he
        refine ⟨f0, f1, f2, f3, f4, f5, rfl, hz, he.1.symm, ?_⟩
        rw [← he.2]
        exact (hourOf_eq_some_iff _ _).mp hn
      · rintro ⟨g0, g1, g2, g3, g4, g5, he, -, hzz, hs⟩
        simp only [List.cons.injEq, and_true] at he
        obtain ⟨-, rfl, -, rfl, -, -⟩ := he
        exact ⟨h, (hourOf_eq_some_iff _ _).mpr hs, by rw [hzz]⟩
  · rename_i hno
    constructor
    · intro hc; exact absurd hc (by simp)
    · rintro ⟨g0, g1, g2, g3, g4, g5, he, -⟩
      exact (hno g0 g1 g2 g3 g4 g5 he).elim

/-- No counter exceeds the number of lines read, so the `long long` counters of
the source do not wrap on a file with fewer than `2^63` lines. -/
theorem counts_le_lines (lines : List Str) (z : Str) (n : Nat) :
    countOf (lines.foldl ingestLine { zoneCounts := [], slotCounts := [] }).zoneCounts z
        ≤ lines.length ∧
    countOf (lines.foldl ingestLine { zoneCounts := [], slotCounts := [] }).slotCounts
        ⟨z, (n : Int)⟩ ≤ lines.length := by
  rw [zoneCount_foldl, slotCount_foldl]
  simp only [countOf, Nat.zero_add]
  exact ⟨List.countP_le_length _, List.countP_le_length _⟩

/-- When a line has a record, in the specification's terms only. -/
theorem recordOf_spec_iff (l z : Str) (n : Nat) :
    recordOf l = some (z, n) ↔
      ∃ f0 f1 f2 f3 f4 f5, fieldsSpec l = [f0, f1, f2, f3, f4, f5] ∧
        trimSpec f1 ≠ [] ∧ z = trimSpec f1 ∧ HourShape (trimSpec f3) n := by
  rw [recordOf_eq_some_iff, splitCSVLine_eq_fieldsSpec]
  simp only [trimInPlace_eq_trimSpec]

/-! ## Validity of the keys -/

theorem recordOf_valid (l z : Str) (n : Nat) (h : recordOf l = some (z, n)) :
    z ≠ [] ∧ Trimmed z ∧ n ≤ 23 := by
  obtain ⟨f0, f1, f2, f3, f4, f5, -, hne, hz, hs⟩ := (recordOf_eq_some_iff l z n).mp h
  obtain ⟨_, _, _, _, _, _, _, _, _, hb⟩ := hs
  rw [hz]
  refine ⟨hne, ?_, hb⟩
  rw [trimInPlace_eq_trimSpec]
  exact trimSpec_trimmed f1

theorem keysValid_cleared : KeysValid { zoneCounts := [], slotCounts := [] } :=
  ⟨by simp, by simp⟩

theorem keysValid_ingestLine (d : Data) (line : Str) (h : KeysValid d) :
    KeysValid (ingestLine d line) := by
  rw [ingestLine_eq]
  cases hr : recordOf line with
  | none => exact h
  | some r =>
    obtain ⟨z0, n0⟩ := r
    obtain ⟨hz, ht, hn⟩ := recordOf_valid line z0 n0 hr
    refine ⟨?_, ?_⟩
    · intro z hmem
      rcases (keys_bump _ z d.zoneCounts).mp hmem with rfl | hk
      · exact ⟨hz, ht⟩
      · exact h.1 z hk
    · intro key hmem
      rcases (keys_bump _ key d.slotCounts).mp hmem with rfl | hk
      · exact ⟨hz, ht, by simp, by simp only; omega⟩
      · exact h.2 key hk

theorem keysValid_foldl (lines : List Str) (d : Data) (h : KeysValid d) :
    KeysValid (lines.foldl ingestLine d) := by
  induction lines generalizing d with
  | nil => exact h
  | cons l ls ih => exact ih _ (keysValid_ingestLine d l h)

theorem keysValid_ingestFile (g : Registry) (self : Nat) (csv : Option (List Str))
    (h : ∀ other d, g other = some d → KeysValid d) :
    ∀ other d, ingestFile g self csv other = some d → KeysValid d := by
  cases csv with
  | none => exact h
  | some lines =>
    intro other d hd
    by_cases ho : other = self
    · subst ho
      rw [ingestFile_self] at hd
      rw [← Option.some.inj hd]
      exact keysValid_foldl _ _ keysValid_cleared
    · rw [ingestFile_other g self other _ ho] at hd
      exact h other d hd

theorem keysValid_runCalls (calls : List (Nat × Option (List Str))) (g : Registry)
    (h : ∀ other d, g other = some d → KeysValid d) :
    ∀ other d, runCalls g calls other = some d → KeysValid d := by
  induction calls generalizing g with
  | nil => exact h
  | cons c cs ih =>
    rw [runCalls_cons]
    exact ih _ (keysValid_ingestFile g c.1 c.2 h)

theorem mem_topBusySlots (g : Registry) (self : Nat) (k : Int) (e : SlotCount)
    (he : e ∈ topBusySlots g self k) :
    ∃ d, dataIf g self = some d ∧ (SlotKey.mk e.zone e.hour, e.count) ∈ d.slotCounts := by
  by_cases hk : 0 < k
  · cases hd : dataIf g self with
    | none =>
      unfold topBusySlots at he
      rw [if_neg (by omega), hd] at he
      exact absurd he (List.not_mem_nil _)
    | some d =>
      rw [topBusySlots_eq g self d k hd hk] at he
      have h1 := (sort_perm _).subset ((truncate_sublist k _).subset he)
      obtain ⟨kv, hkv, rfl⟩ := List.mem_map.mp h1
      exact ⟨d, rfl, hkv⟩
  · unfold topBusySlots at he
    rw [if_pos (by omega)] at he
    exact absurd he (List.not_mem_nil _)

/-! ## Further lemmas on `ingestFile` and the ranked queries -/

theorem ingestLine_wrong_count (d : Data) (line : Str) (h : (splitCSVLine line).length ≠ 6) :
    ingestLine d line = d := by
  unfold ingestLine
  by_cases he : line.isEmpty = true
  · rw [if_pos he]
  · rw [if_neg he]
    simp only
    rw [if_pos h]

theorem truncate_prefix_succ {α : Type} (k : Int) (l : List α) :
    truncate k l <+: truncate (k + 1) l := by
  rw [truncate_eq_take, truncate_eq_take]
  exact List.take_prefix_take_left l (Int.toNat_le_toNat (by omega))

theorem zoneTable_perm (rest rest' : List Str) (hp : rest.Perm rest') :
    (rest.foldl ingestLine { zoneCounts := [], slotCounts := [] }).zoneCounts.Perm
      (rest'.foldl ingestLine { zoneCounts := [], slotCounts := [] }).zoneCounts := by
  have hok := dataOK_foldl rest _ dataOK_cleared
  have hok' := dataOK_foldl rest' _ dataOK_cleared
  rw [List.perm_ext_iff_of_nodup (List.Nodup.of_map _ hok.1.1) (List.Nodup.of_map _ hok'.1.1)]
  rintro ⟨z, c⟩
  rw [tableOK_mem_iff _ hok.1, tableOK_mem_iff _ hok'.1, zoneCount_foldl, zoneCount_foldl,
    hp.countP_eq]

theorem slotTable_perm (rest rest' : List Str) (hp : rest.Perm rest') :
    (rest.foldl ingestLine { zoneCounts := [], slotCounts := [] }).slotCounts.Perm
      (rest'.foldl ingestLine { zoneCounts := [], slotCounts := [] }).slotCounts := by
  have hok := dataOK_foldl rest _ dataOK_cleared
  have hok' := dataOK_foldl rest' _ dataOK_cleared
  have key : ∀ (r r' : List Str), r.Perm r' →
      DataOK (r.foldl ingestLine { zoneCounts := [], slotCounts := [] }) →
      DataOK (r'.foldl ingestLine { zoneCounts := [], slotCounts := [] }) →
      ∀ e, e ∈ (r.foldl ingestLine { zoneCounts := [], slotCounts := [] }).slotCounts →
        e ∈ (r'.foldl ingestLine { zoneCounts := [], slotCounts := [] }).slotCounts := by
    intro r r' hperm h h' e he
    obtain ⟨⟨z, hr⟩, c⟩ := e
    obtain ⟨h0, -⟩ := h.2.2.1 _ (List.mem_map.mpr ⟨_, he, rfl⟩)
    simp only at h0
    obtain ⟨n, rfl⟩ := Int.eq_ofNat_of_zero_le h0
    rw [tableOK_mem_iff _ h.2.1, slotCount_foldl, hperm.countP_eq] at he
    rw [tableOK_mem_iff _ h'.2.1, slotCount_foldl]
    exact he
  rw [List.perm_ext_iff_of_nodup (List.Nodup.of_map _ hok.2.1.1)
    (List.Nodup.of_map _ hok'.2.1.1)]
  intro e
  exact ⟨key rest rest' hp hok hok' e, key rest' rest hp.symm hok' hok e⟩

/-! ## The checked reads never fail -/

theorem trimScanFwdChecked_eq (s : Str) (fuel i : Nat) (hf : s.length ≤ fuel + i) :
    trimScanFwdChecked s fuel i = some (trimScanFwd s fuel i) := by
  induction fuel generalizing i with
  | zero =>
    unfold trimScanFwdChecked trimScanFwd
    rw [if_neg (by omega)]
  | succ fuel ih =>
    unfold trimScanFwdChecked trimScanFwd
    by_cases hi : i < s.length
    · rw [if_pos hi]
      have hsome : s[i]? = some s[i] := List.getElem?_eq_getElem hi
      rw [hsome]
      simp only
      by_cases hc : isspace s[i] = true
      · rw [if_pos hc, if_pos hc]
        exact ih (i + 1) (by omega)
      · rw [if_neg hc, if_neg hc]
    · rw [if_neg hi, List.getElem?_eq_none (by omega)]

theorem trimScanBwdChecked_eq (s : Str) (i fuel j : Nat) (hj : j ≤ s.length)
    (hf : j ≤ fuel + i) :
    trimScanBwdChecked s i fuel j = some (trimScanBwd s i fuel j) := by
  induction fuel generalizing j with
  | zero =>
    unfold trimScanBwdChecked trimScanBwd
    rw [if_neg (by omega)]
  | succ fuel ih =>
    unfold trimScanBwdChecked trimScanBwd
    by_cases hji : j > i
    · rw [if_pos hji, if_pos hji]
      have hlt : j - 1 < s.length := by omega
      have hsome : s[j - 1]? = some s[j - 1] := List.getElem?_eq_getElem hlt
      rw [hsome]
      simp only
      by_cases hc : isspace s[j - 1] = true
      · rw [if_pos hc, if_pos hc]
        exact ih (j - 1) (by omega) (by omega)
      · rw [if_neg hc, if_neg hc]
    · rw [if_neg hji, if_neg hji]

theorem trimInPlaceChecked_eq (s : Str) : trimInPlaceChecked s = some (trimInPlace s) := by
  unfold trimInPlaceChecked trimInPlace
  rw [trimScanFwdChecked_eq s s.length 0 (by omega)]
  simp only
  rw [trimScanBwdChecked_eq s _ s.length s.length (Nat.le_refl _) (by omega)]
  simp only
  split_ifs with h
  · rfl
  · unfold substrChecked substr
    rw [if_neg (by have := trimScanFwd_le s s.length 0 (Nat.zero_le _); omega)]

theorem parseHourChecked_eq (dt : Str) : parseHourChecked dt = some (parseHour dt) := by
  unfold parseHourChecked parseHour
  cases hf : find dt ' ' with
  | none => rfl
  | some sp =>
    simp only
    by_cases hlen : sp + 3 > dt.length
    · rw [if_pos hlen, if_pos hlen]
    · rw [if_neg hlen, if_neg hlen]
      have h1 : sp + 1 < dt.length := by omega
      have h2 : sp + 2 < dt.length := by omega
      have e1 : dt[sp + 1]? = some dt[sp + 1] := List.getElem?_eq_getElem h1
      have e2 : dt[sp + 2]? = some dt[sp + 2] := List.getElem?_eq_getElem h2
      have g1 : dt.getD (sp + 1) ' ' = dt[sp + 1] := by
        rw [List.getD_eq_getElem?_getD, e1]; rfl
      have g2 : dt.getD (sp + 2) ' ' = dt[sp + 2] := by
        rw [List.getD_eq_getElem?_getD, e2]; rfl
      rw [e1, e2, g1, g2]
      simp only
      split_ifs <;> rfl

theorem fields_in_range (fields : List Str) (h : fields.length = 6) :
    fields[1]? = some (fields.getD 1 []) ∧ fields[3]? = some (fields.getD 3 []) := by
  have h1 : 1 < fields.length := by omega
  have h3 : 3 < fields.length := by omega
  have e1 : fields[1]? = some fields[1] := List.getElem?_eq_getElem h1
  have e3 : fields[3]? = some fields[3] := List.getElem?_eq_getElem h3
  refine ⟨?_, ?_⟩
  · rw [List.getD_eq_getElem?_getD, e1]; rfl
  · rw [List.getD_eq_getElem?_getD, e3]; rfl

theorem ingestLineChecked_eq (d : Data) (line : Str) :
    ingestLineChecked d line = some (ingestLine d line) := by
  unfold ingestLineChecked ingestLine
  by_cases he : line.isEmpty = true
  · rw [if_pos he, if_pos he]
  · rw [if_neg he, if_neg he]
    simp only
    by_cases hlen : (splitCSVLine line).length ≠ 6
    · rw [if_pos hlen, if_pos hlen]
    · rw [if_neg hlen, if_neg hlen]
      obtain ⟨e1, e3⟩ := fields_in_range (splitCSVLine line) (by simpa using hlen)
      rw [e1, e3]
      simp only [trimInPlaceChecked_eq]
      split_ifs with h1 h2
      · rfl
      · rw [parseHourChecked_eq] at *
        simp_all
      · rw [parseHourChecked_eq]
        simp only
        rw [if_neg h2]

theorem ingestLinesChecked_eq (lines : List Str) (d : Data) :
    ingestLinesChecked d lines = some (lines.foldl ingestLine d) := by
  induction lines generalizing d with
  | nil => rfl
  | cons l ls ih =>
    unfold ingestLinesChecked
    rw [ingestLineChecked_eq]
    exact ih _

theorem ingestFileChecked_eq (g : Registry) (self : Nat) (csv : Option (List Str)) :
    ingestFileChecked g self csv = some (ingestFile g self csv) := by
  unfold ingestFileChecked ingestFile
  cases csv with
  | none => rfl
  | some lines =>
    cases lines with
    | nil => rfl
    | cons h rest =>
      simp only
      rw [ingestLinesChecked_eq]

/-- Claim C1: after `ingestFile` on an openable source, from any prior registry,
the instance has tables with unique keys in which `(zone, count)` is an entry
of the zone table iff `count` is positive and is the number of non-header
lines whose record has that zone, and `((zone, hour), count)` is an entry of
the slot table iff the hour is a natural number, `count` is positive and is
the number of non-header lines whose record is `(zone, hour)`; so keys with no
such line are absent.  The record of a line is the specification's: a line has
the record `(z, n)` iff splitting it at its commas outside double quotes, the
quotes removed, gives exactly 6 fields, field 1 without its whitespace prefix
and suffix is `z` and is non-empty, and field 3 so trimmed has a first space
followed by two ASCII digits forming the number `n ≤ 23`. -/
theorem ingestFile_counts (g : Registry) (self : Nat) (lines : List Str) :
    ∃ d, dataIf (ingestFile g self (some lines)) self = some d ∧
      (d.zoneCounts.map Prod.fst).Nodup ∧ (d.slotCounts.map Prod.fst).Nodup ∧
      (∀ (z : Str) (c : Nat), (z, c) ∈ d.zoneCounts ↔
        0 < c ∧ c = lines.tail.countP
          (fun l => decide ((recordOf l).map Prod.fst = some z))) ∧
      (∀ (z : Str) (h : Int) (c : Nat), (SlotKey.mk z h, c) ∈ d.slotCounts ↔
        ∃ n : Nat, h = (n : Int) ∧ 0 < c ∧
          c = lines.tail.countP (fun l => decide (recordOf l = some (z, n)))) ∧
      (∀ (l z : Str) (n : Nat), recordOf l = some (z, n) ↔
        ∃ f0 f1 f2 f3 f4 f5, fieldsSpec l = [f0, f1, f2, f3, f4, f5] ∧
          trimSpec f1 ≠ [] ∧ z = trimSpec f1 ∧ HourShape (trimSpec f3) n) := by
  have hok : DataOK (lines.tail.foldl ingestLine { zoneCounts := [], slotCounts := [] }) :=
    dataOK_foldl _ _ dataOK_cleared
  refine ⟨_, ingestFile_self g self lines, hok.1.1, hok.2.1.1, ?_, ?_, recordOf_spec_iff⟩
  · intro z c
    rw [tableOK_mem_iff _ hok.1, zoneCount_foldl]
    simp [countOf]
  · intro z h c
    constructor
    · intro hm
      obtain ⟨h0, -⟩ := hok.2.2.1 _ (List.mem_map.mpr ⟨_, hm, rfl⟩)
      simp only at h0
      obtain ⟨n, rfl⟩ := Int.eq_ofNat_of_zero_le h0
      have := (tableOK_mem_iff _ hok.2.1 _ _).mp hm
      rw [slotCount_foldl] at this
      exact ⟨n, rfl, this.1, by simpa [countOf] using this.2⟩
    · rintro ⟨n, rfl, hc, he⟩
      rw [tableOK_mem_iff _ hok.2.1, slotCount_foldl]
      exact ⟨hc, by simpa [countOf] using he⟩

/-- Claim C2: consistency of the two tables (for every zone the slot counts over
all hours add up to the zone count, slot hours lie in 0..23, and a zone is a
key of the zone table iff it occurs in a key of the slot table) holds for every
instance after any sequence of `ingestFile` calls, openable or not, run from
any registry in which it holds; it holds in the empty registry, hence in every
state the program reaches. -/
theorem tables_consistent (g : Registry) (calls : List (Nat × Option (List Str)))
    (h : Consistent g) : Consistent (runCalls g calls) := by
  induction calls generalizing g with
  | nil => exact h
  | cons c cs ih =>
    rw [runCalls_cons]
    exact ih _ (consistent_ingestFile g c.1 c.2 h)

/-- Witness for C2: the empty registry is consistent, and so is the registry
after a run with two openable sources and one that cannot be opened. -/
theorem tables_consistent_witness :
    Consistent emptyRegistry ∧
      Consistent (runCalls emptyRegistry
        [(0, some scenarioFile), (0, none), (1, some ["h".toList, ",a,, 05,,".toList])]) :=
  have h0 : Consistent emptyRegistry := fun _ _ hd => by cases hd
  ⟨h0, tables_consistent emptyRegistry _ h0⟩

/-- Claim C3: for a zone table with unique keys and `k > 0`, `topZones(k)`
returns `min(k, n)` entries, each an entry of the table, no zone repeated,
consecutive entries strictly ranked (greater count, or equal count and smaller
zone), every entry not returned ranked strictly after every returned one, all
entries when `k ≥ n`; and for zones "B":5 and "A":5, in either enumeration
order, `topZones(2)` is `[("A",5),("B",5)]`. -/
theorem topZones_ranked (g : Registry) (self : Nat) (d : Data) (k : Int)
    (hd : dataIf g self = some d) (hn : (d.zoneCounts.map Prod.fst).Nodup) (hk : 0 < k) :
    ((topZones g self k).length : Int) = min k (d.zoneCounts.length : Int) ∧
    (∀ e ∈ topZones g self k, (e.zone, e.count) ∈ d.zoneCounts) ∧
    ((topZones g self k).map ZoneCount.zone).Nodup ∧
    (topZones g self k).Chain' (fun a b =>
      a.count > b.count ∨ (a.count = b.count ∧ strLess a.zone b.zone = true)) ∧
    (∀ kv ∈ d.zoneCounts, ZoneCount.mk kv.1 kv.2 ∉ topZones g self k →
      ∀ r ∈ topZones g self k,
        r.count > kv.2 ∨ (r.count = kv.2 ∧ strLess r.zone kv.1 = true)) ∧
    ((d.zoneCounts.length : Int) ≤ k →
      (topZones g self k).Perm (d.zoneCounts.map fun kv => ZoneCount.mk kv.1 kv.2)) ∧
    (∀ (g' : Registry) (slots : List (SlotKey × Nat)),
      (dataIf g' self = some ⟨[("B".toList, 5), ("A".toList, 5)], slots⟩ ∨
        dataIf g' self = some ⟨[("A".toList, 5), ("B".toList, 5)], slots⟩) →
      topZones g' self 2 = [⟨"A".toList, 5⟩, ⟨"B".toList, 5⟩]) := by
  have hmap : (d.zoneCounts.map fun kv => ZoneCount.mk kv.1 kv.2).map ZoneCount.zone =
      d.zoneCounts.map Prod.fst := by
    rw [List.map_map]; rfl
  have hnd : (d.zoneCounts.map fun kv => ZoneCount.mk kv.1 kv.2).Nodup :=
    List.Nodup.of_map ZoneCount.zone (by rw [hmap]; exact hn)
  obtain ⟨h1, h2, h3, h4, h5⟩ := topK_generic zoneCountLess_strictTotal _ hnd k hk
  rw [← topZones_eq g self d k hd hk] at h1 h2 h3 h4 h5
  rw [List.length_map] at h1 h5
  refine ⟨h1, ?_, ?_, ?_, ?_, h5, ?_⟩
  · intro e he
    obtain ⟨kv, hkv, rfl⟩ := List.mem_map.mp (h2 e he)
    exact hkv
  · rw [topZones_eq g self d k hd hk]
    exact topK_map_nodup _ _ k (by rw [hmap]; exact hn)
  · exact (h3.imp fun {a b} h => (zoneCountLess_iff a b).mp h).chain'
  · intro kv hkv hne r hr
    exact (zoneCountLess_iff r _).mp (h4 _ (List.mem_map.mpr ⟨kv, hkv, rfl⟩) hne r hr)
  · intro g' slots h
    rcases h with h | h
    · rw [topZones_eq g' self _ 2 h (by decide)]; rfl
    · rw [topZones_eq g' self _ 2 h (by decide)]; rfl

/-- Witness for C3: the table with zones "B" and "A" has unique keys, and for
`k = 2` two entries are returned. -/
theorem topZones_ranked_witness :
    dataIf tieRegistry 0 = some tieData ∧ (tieData.zoneCounts.map Prod.fst).Nodup ∧
      (0 : Int) < 2 ∧
      ((topZones tieRegistry 0 2).length : Int) = min 2 (tieData.zoneCounts.length : Int) :=
  ⟨rfl, by decide, by decide,
    (topZones_ranked tieRegistry 0 tieData 2 rfl (by decide) (by decide)).1⟩

/-- Claim C4: for a slot table with unique keys and `k > 0`, `topBusySlots(k)`
returns `min(k, n)` entries, each an entry of the table, no `(zone, hour)` key
repeated, consecutive entries strictly ranked (greater count, or equal count
and smaller zone, or equal count and zone and smaller hour), and every entry
not returned ranked strictly after every returned one. -/
theorem topBusySlots_ranked (g : Registry) (self : Nat) (d : Data) (k : Int)
    (hd : dataIf g self = some d) (hn : (d.slotCounts.map Prod.fst).Nodup) (hk : 0 < k) :
    ((topBusySlots g self k).length : Int) = min k (d.slotCounts.length : Int) ∧
    (∀ e ∈ topBusySlots g self k, (SlotKey.mk e.zone e.hour, e.count) ∈ d.slotCounts) ∧
    ((topBusySlots g self k).map fun e => SlotKey.mk e.zone e.hour).Nodup ∧
    (topBusySlots g self k).Chain' (fun a b =>
      a.count > b.count ∨ (a.count = b.count ∧ strLess a.zone b.zone = true) ∨
        (a.count = b.count ∧ a.zone = b.zone ∧ a.hour < b.hour)) ∧
    (∀ kv ∈ d.slotCounts, SlotCount.mk kv.1.zone kv.1.hour kv.2 ∉ topBusySlots g self k →
      ∀ r ∈ topBusySlots g self k,
        r.count > kv.2 ∨ (r.count = kv.2 ∧ strLess r.zone kv.1.zone = true) ∨
          (r.count = kv.2 ∧ r.zone = kv.1.zone ∧ r.hour < kv.1.hour)) := by
  have hmap : (d.slotCounts.map fun kv => SlotCount.mk kv.1.zone kv.1.hour kv.2).map
      (fun e => SlotKey.mk e.zone e.hour) = d.slotCounts.map Prod.fst := by
    rw [List.map_map]; rfl
  have hnd : (d.slotCounts.map fun kv => SlotCount.mk kv.1.zone kv.1.hour kv.2).Nodup :=
    List.Nodup.of_map (fun e => SlotKey.mk e.zone e.hour) (by rw [hmap]; exact hn)
  obtain ⟨h1, h2, h3, h4, -⟩ := topK_generic slotCountLess_strictTotal _ hnd k hk
  rw [← topBusySlots_eq g self d k hd hk] at h1 h2 h3 h4
  rw [List.length_map] at h1
  refine ⟨h1, ?_, ?_, ?_, ?_⟩
  · intro e he
    obtain ⟨kv, hkv, rfl⟩ := List.mem_map.mp (h2 e he)
    exact hkv
  · rw [topBusySlots_eq g self d k hd hk]
    exact topK_map_nodup _ _ k (by rw [hmap]; exact hn)
  · exact (h3.imp fun {a b} h => (slotCountLess_iff a b).mp h).chain'
  · intro kv hkv hne r hr
    exact (slotCountLess_iff r _).mp (h4 _ (List.mem_map.mpr ⟨kv, hkv, rfl⟩) hne r hr)

/-- Witness for C4: the slot table of `tieData` has unique keys, and for `k = 2`
two of its three entries are returned. -/
theorem topBusySlots_ranked_witness :
    dataIf tieRegistry 0 = some tieData ∧ (tieData.slotCounts.map Prod.fst).Nodup ∧
      (0 : Int) < 2 ∧
      ((topBusySlots tieRegistry 0 2).length : Int) = min 2 (tieData.slotCounts.length : Int) :=
  ⟨rfl, by decide, by decide,
    (topBusySlots_ranked tieRegistry 0 tieData 2 rfl (by decide) (by decide)).1⟩

/-- Claim C5: the results of `topZones(k)` and `topBusySlots(k)` depend on the
entries of the tables only: two states whose tables are enumerations
(permutations) of the same entries give identical results, both comparators
are strict total orders, and whatever ordered rearrangement `std::sort`
produces, its truncation is the result. -/
theorem topK_order_independent (g g' : Registry) (self : Nat) (d d' : Data) (k : Int)
    (hd : dataIf g self = some d) (hd' : dataIf g' self = some d')
    (hz : d.zoneCounts.Perm d'.zoneCounts) (hs : d.slotCounts.Perm d'.slotCounts) :
    topZones g self k = topZones g' self k ∧
    topBusySlots g self k = topBusySlots g' self k ∧
    StrictTotal zoneCountLess ∧ StrictTotal slotCountLess ∧
    (∀ out : List ZoneCount,
      out.Perm (d'.zoneCounts.map fun kv => ZoneCount.mk kv.1 kv.2) →
      Ordered zoneCountLess out → truncate k out = topZones g self k) ∧
    (∀ out : List SlotCount,
      out.Perm (d'.slotCounts.map fun kv => SlotCount.mk kv.1.zone kv.1.hour kv.2) →
      Ordered slotCountLess out → truncate k out = topBusySlots g self k) := by
  by_cases hk : 0 < k
  · rw [topZones_eq g self d k hd hk, topZones_eq g' self d' k hd' hk,
      topBusySlots_eq g self d k hd hk, topBusySlots_eq g' self d' k hd' hk]
    refine ⟨?_, ?_, zoneCountLess_strictTotal, slotCountLess_strictTotal, ?_, ?_⟩
    · rw [sort_congr zoneCountLess_strictTotal (hz.map _)]
    · rw [sort_congr slotCountLess_strictTotal (hs.map _)]
    · intro out hp ho
      rw [sort_unique zoneCountLess_strictTotal (hp.trans (hz.map _).symm) ho]
    · intro out hp ho
      rw [sort_unique slotCountLess_strictTotal (hp.trans (hs.map _).symm) ho]
  · have hz0 : ∀ r : Registry, topZones r self k = [] := fun r => by
      unfold topZones; rw [if_pos (by omega)]
    have hs0 : ∀ r : Registry, topBusySlots r self k = [] := fun r => by
      unfold topBusySlots; rw [if_pos (by omega)]
    rw [hz0, hz0, hs0, hs0]
    exact ⟨rfl, rfl, zoneCountLess_strictTotal, slotCountLess_strictTotal,
      fun out _ _ => truncate_nonpos k (by omega) out,
      fun out _ _ => truncate_nonpos k (by omega) out⟩

/-- Witness for C5: `tieData` and `tieDataSwapped` enumerate the same entries in
different orders and give the same ranked zones. -/
theorem topK_order_independent_witness :
    dataIf tieRegistry 0 = some tieData ∧ dataIf tieRegistrySwapped 0 = some tieDataSwapped ∧
      tieData.zoneCounts.Perm tieDataSwapped.zoneCounts ∧
      tieData.slotCounts.Perm tieDataSwapped.slotCounts ∧
      topZones tieRegistry 0 1 = topZones tieRegistrySwapped 0 1 :=
  have hz : tieData.zoneCounts.Perm tieDataSwapped.zoneCounts := List.Perm.swap _ _ _
  have hs : tieData.slotCounts.Perm tieDataSwapped.slotCounts :=
    (List.Perm.swap _ _ _).trans (List.Perm.refl _)
  ⟨rfl, rfl, hz, hs,
    (topK_order_independent tieRegistry tieRegistrySwapped 0 tieData tieDataSwapped 1
      rfl rfl hz hs).1⟩

/-- Claim C6, failing input: an object at address 0 ingests the scenario source
and is destroyed, and a second object is constructed at address 0.  No
ingestion has succeeded for the second object, yet `topZones(1)` and
`topBusySlots(1)` on it return the entries of the destroyed one instead of
empty sequences, because the registry entry of an address is never erased. -/
theorem stale_tables_never_ingested :
    hasIngested 0 reusedAddressTrace false = false ∧
      topZones (runActions emptyRegistry reusedAddressTrace) 0 1 = [⟨"Downtown".toList, 2⟩] ∧
      topBusySlots (runActions emptyRegistry reusedAddressTrace) 0 1 =
        [⟨"Downtown".toList, 8, 1⟩] := by
  refine ⟨by decide, ?_, ?_⟩
  · have hd : dataIf (runActions emptyRegistry reusedAddressTrace) 0 = _ :=
      ingestFile_self emptyRegistry 0 scenarioFile
    rw [topZones_eq _ 0 _ 1 hd (by decide)]
    decide
  · have hd : dataIf (runActions emptyRegistry reusedAddressTrace) 0 = _ :=
      ingestFile_self emptyRegistry 0 scenarioFile
    rw [topBusySlots_eq _ 0 _ 1 hd (by decide)]
    decide

/-- Claim C7, failing input: after the same actions the second object at address
0 calls `ingestFile` on a source that cannot be opened.  It has never
ingested, yet `topZones(1)` and `topBusySlots(1)` on it return the entries of
the destroyed object instead of empty sequences. -/
theorem stale_tables_after_failed_open :
    hasIngested 0 (reusedAddressTrace ++ [Action.ingest 0 none]) false = false ∧
      topZones (runActions emptyRegistry (reusedAddressTrace ++ [Action.ingest 0 none])) 0 1 =
        [⟨"Downtown".toList, 2⟩] ∧
      topBusySlots (runActions emptyRegistry (reusedAddressTrace ++ [Action.ingest 0 none]))
        0 1 = [⟨"Downtown".toList, 8, 1⟩] := by
  refine ⟨by decide, ?_, ?_⟩
  · have hd : dataIf (runActions emptyRegistry
        (reusedAddressTrace ++ [Action.ingest 0 none])) 0 = _ :=
      ingestFile_self emptyRegistry 0 scenarioFile
    rw [topZones_eq _ 0 _ 1 hd (by decide)]
    decide
  · have hd : dataIf (runActions emptyRegistry
        (reusedAddressTrace ++ [Action.ingest 0 none])) 0 = _ :=
      ingestFile_self emptyRegistry 0 scenarioFile
    rw [topBusySlots_eq _ 0 _ 1 hd (by decide)]
    decide

/-- Claim C8: the tables after a successful `ingestFile` depend on the source
only: two prior registries give the same tables, ingesting the source a second
time leaves the registry as the first call left it, and `topZones(k)` and
`topBusySlots(k)` agree in each case. -/
theorem ingestFile_idempotent (g g' : Registry) (self : Nat) (lines : List Str) (k : Int) :
    dataIf (ingestFile g self (some lines)) self = dataIf (ingestFile g' self (some lines)) self ∧
    ingestFile (ingestFile g self (some lines)) self (some lines) =
      ingestFile g self (some lines) ∧
    topZones (ingestFile g self (some lines)) self k =
      topZones (ingestFile g' self (some lines)) self k ∧
    topBusySlots (ingestFile g self (some lines)) self k =
      topBusySlots (ingestFile g' self (some lines)) self k ∧
    topZones (ingestFile (ingestFile g self (some lines)) self (some lines)) self k =
      topZones (ingestFile g self (some lines)) self k ∧
    topBusySlots (ingestFile (ingestFile g self (some lines)) self (some lines)) self k =
      topBusySlots (ingestFile g self (some lines)) self k := by
  have h1 : dataIf (ingestFile g self (some lines)) self =
      dataIf (ingestFile g' self (some lines)) self := by
    unfold dataIf; rw [ingestFile_self, ingestFile_self]
  have h2 : ingestFile (ingestFile g self (some lines)) self (some lines) =
      ingestFile g self (some lines) := by
    rw [ingestFile_eq_update, ingestFile_eq_update, Function.update_idem]
  refine ⟨h1, h2, topZones_congr _ _ _ _ h1, topBusySlots_congr _ _ _ _ h1, ?_, ?_⟩
  · rw [h2]
  · rw [h2]

/-- Claim C9: after ingesting the five-line scenario source, from any registry,
`topZones(2)` is `[("Downtown",2),("Uptown",1)]` and `topBusySlots(3)` is
`[("Downtown",8,1),("Downtown",9,1),("Uptown",8,1)]`. -/
theorem scenario_end_to_end (g : Registry) (self : Nat) :
    topZones (ingestFile g self (some scenarioFile)) self 2 =
      [⟨"Downtown".toList, 2⟩, ⟨"Uptown".toList, 1⟩] ∧
    topBusySlots (ingestFile g self (some scenarioFile)) self 3 =
      [⟨"Downtown".toList, 8, 1⟩, ⟨"Downtown".toList, 9, 1⟩, ⟨"Uptown".toList, 8, 1⟩] := by
  have hz := topZones_eq (ingestFile g self (some scenarioFile)) self _ 2
    (ingestFile_self g self scenarioFile) (by decide)
  have hs := topBusySlots_eq (ingestFile g self (some scenarioFile)) self _ 3
    (ingestFile_self g self scenarioFile) (by decide)
  rw [hz, hs]
  constructor <;> decide

/-- Claim C10: `parseHour(dt)` is the hour `h` iff `dt` has a first space followed
by two ASCII digits forming `h ≤ 23`; in every other case it is `-1`; a result
other than `-1` lies in 0..23; and `"a 12bc"` gives 12. -/
theorem parseHour_spec (dt : Str) :
    (∀ h : Nat, parseHour dt = (h : Int) ↔ HourShape dt h) ∧
    ((¬ ∃ h, HourShape dt h) → parseHour dt = -1) ∧
    (parseHour dt = -1 ∨ (0 ≤ parseHour dt ∧ parseHour dt ≤ 23)) ∧
    parseHour "a 12bc".toList = 12 := by
  refine ⟨parseHour_eq_iff dt, ?_, ?_, by decide⟩
  · intro hno
    rcases parseHour_range dt with h | ⟨h, hh, -⟩
    · exact h
    · exact absurd ⟨h, (parseHour_eq_iff dt h).mp hh⟩ hno
  · rcases parseHour_range dt with h | ⟨h, hh, hb⟩
    · exact Or.inl h
    · right; rw [hh]; omega

/-- Claim C12: a line whose split does not have exactly 6 fields leaves the state
of the loop unchanged, so a source with such a line after the header, at any
position, and the source without it give the same registry. -/
theorem wrong_field_count_ignored (g : Registry) (self : Nat) (header line : Str)
    (before after : List Str) (h : (splitCSVLine line).length ≠ 6) :
    ingestFile g self (some (header :: (before ++ line :: after))) =
      ingestFile g self (some (header :: (before ++ after))) ∧
    (∀ d, ingestLine d line = d) := by
  refine ⟨?_, fun d => ingestLine_wrong_count d line h⟩
  rw [ingestFile_eq_update, ingestFile_eq_update]
  simp only [List.tail_cons, List.foldl_append, List.foldl_cons]
  rw [ingestLine_wrong_count _ line h]

/-- Witness for C12: a line of 5 fields and a line of 7 fields, and a source
from which the 5-field line is removed. -/
theorem wrong_field_count_ignored_witness :
    (splitCSVLine "9,Downtown,_,2023-01-15 08:12:00,_".toList).length ≠ 6 ∧
      (splitCSVLine "9,Downtown,_,2023-01-15 08:12:00,_,_,_".toList).length ≠ 6 ∧
      ingestFile emptyRegistry 0 (some ("h".toList ::
          ([",a,, 05,,".toList] ++ "9,Downtown,_,2023-01-15 08:12:00,_".toList :: []))) =
        ingestFile emptyRegistry 0 (some ("h".toList :: ([",a,, 05,,".toList] ++ []))) :=
  ⟨by decide, by decide,
    (wrong_field_count_ignored emptyRegistry 0 "h".toList
      "9,Downtown,_,2023-01-15 08:12:00,_".toList [",a,, 05,,".toList] [] (by decide)).1⟩

/-- Claim C13: in every state reached from the empty registry by a sequence of
`ingestFile` calls, every zone key of the zone table and of the slot table is
non-empty with a first and a last character that are not whitespace, every
slot hour lies in 0..23, and so does the hour of every entry `topBusySlots`
returns. -/
theorem keys_valid (calls : List (Nat × Option (List Str))) (self : Nat) (d : Data) (k : Int)
    (hd : dataIf (runCalls emptyRegistry calls) self = some d) :
    (∀ z ∈ d.zoneCounts.map Prod.fst, z ≠ [] ∧ ∃ a b, z.head? = some a ∧
      z.getLast? = some b ∧ isspace a = false ∧ isspace b = false) ∧
    (∀ key ∈ d.slotCounts.map Prod.fst, key.zone ≠ [] ∧ (∃ a b, key.zone.head? = some a ∧
      key.zone.getLast? = some b ∧ isspace a = false ∧ isspace b = false) ∧
      0 ≤ key.hour ∧ key.hour ≤ 23) ∧
    (∀ e ∈ topBusySlots (runCalls emptyRegistry calls) self k, 0 ≤ e.hour ∧ e.hour ≤ 23) := by
  have hv : KeysValid d :=
    keysValid_runCalls calls emptyRegistry (fun _ _ h => by cases h) self d hd
  refine ⟨?_, ?_, ?_⟩
  · intro z hz
    obtain ⟨hne, ht⟩ := hv.1 z hz
    exact ⟨hne, ht.resolve_left hne⟩
  · intro key hkey
    obtain ⟨hne, ht, h0, h23⟩ := hv.2 key hkey
    exact ⟨hne, ht.resolve_left hne, h0, h23⟩
  · intro e he
    obtain ⟨d', hd', hmem⟩ := mem_topBusySlots _ self k e he
    rw [hd] at hd'
    rw [← Option.some.inj hd'] at hmem
    obtain ⟨-, -, h0, h23⟩ := hv.2 _ (List.mem_map.mpr ⟨_, hmem, rfl⟩)
    exact ⟨h0, h23⟩

/-- Witness for C13: the state after ingesting the scenario source and then
failing to open a source. -/
theorem keys_valid_witness :
    dataIf (runCalls emptyRegistry [(0, some scenarioFile), (0, none)]) 0 =
        some { zoneCounts := [("Downtown".toList, 2), ("Uptown".toList, 1)]
               slotCounts := [(⟨"Downtown".toList, 8⟩, 1), (⟨"Uptown".toList, 8⟩, 1),
                 (⟨"Downtown".toList, 9⟩, 1)] } ∧
      ∀ e ∈ topBusySlots (runCalls emptyRegistry [(0, some scenarioFile), (0, none)]) 0 3,
        0 ≤ e.hour ∧ e.hour ≤ 23 :=
  have h : dataIf (runCalls emptyRegistry [(0, some scenarioFile), (0, none)]) 0 =
        some { zoneCounts := [("Downtown".toList, 2), ("Uptown".toList, 1)]
               slotCounts := [(⟨"Downtown".toList, 8⟩, 1), (⟨"Uptown".toList, 8⟩, 1),
                 (⟨"Downtown".toList, 9⟩, 1)] } := by
    show ingestFile emptyRegistry 0 (some scenarioFile) 0 = _
    rw [ingestFile_self]
    decide
  ⟨h, (keys_valid _ 0 _ 3 h).2.2⟩

/-- Claim C14: with every indexed read checked, `ingestFile`, its loop body,
`parseHour` and `trimInPlace` return the result of the unchecked code, never
the out-of-bounds value: fields 1 and 3 exist whenever the split has 6 fields,
the characters at `sp + 1` and `sp + 2` exist whenever the length test of
`parseHour` passes, and the comparators given to `std::sort` by `topZones`
and `topBusySlots` are strict total orders, as `std::sort` requires. -/
theorem no_out_of_bounds (g : Registry) (self : Nat) (csv : Option (List Str))
    (line dt s : Str) (d : Data) :
    ingestFileChecked g self csv = some (ingestFile g self csv) ∧
    ingestLineChecked d line = some (ingestLine d line) ∧
    parseHourChecked dt = some (parseHour dt) ∧
    trimInPlaceChecked s = some (trimInPlace s) ∧
    ((splitCSVLine line).length = 6 →
      ∃ f1 f3, (splitCSVLine line)[1]? = some f1 ∧ (splitCSVLine line)[3]? = some f3) ∧
    (∀ sp, find dt ' ' = some sp → ¬ sp + 3 > dt.length →
      ∃ c0 c1, dt[sp + 1]? = some c0 ∧ dt[sp + 2]? = some c1) ∧
    StrictTotal zoneCountLess ∧ StrictTotal slotCountLess := by
  refine ⟨ingestFileChecked_eq g self csv, ingestLineChecked_eq d line,
    parseHourChecked_eq dt, trimInPlaceChecked_eq s, ?_, ?_, zoneCountLess_strictTotal,
    slotCountLess_strictTotal⟩
  · intro h
    obtain ⟨e1, e3⟩ := fields_in_range _ h
    exact ⟨_, _, e1, e3⟩
  · intro sp _ hlen
    exact ⟨_, _, List.getElem?_eq_getElem (show sp + 1 < dt.length by omega),
      List.getElem?_eq_getElem (show sp + 2 < dt.length by omega)⟩

/-- Claim C15: the first line of an openable source is not counted: sources
that differ in their first line only give the same registry, also when the
first line is a well-formed record, and a source with no line or with one
line gives two empty tables from any prior registry. -/
theorem header_discarded (g g' : Registry) (self : Nat) (header header' : Str)
    (rest : List Str) :
    ingestFile g self (some (header :: rest)) = ingestFile g self (some (header' :: rest)) ∧
    dataIf (ingestFile g self (some [])) self = some { zoneCounts := [], slotCounts := [] } ∧
    dataIf (ingestFile g self (some [header])) self =
      some { zoneCounts := [], slotCounts := [] } ∧
    dataIf (ingestFile g self (some ("1,Downtown,_,2023-01-15 08:12:00,_,_".toList :: rest)))
        self =
      dataIf (ingestFile g' self (some ("id,pickup_zone,x,pickup_datetime,y,z".toList :: rest)))
        self := by
  refine ⟨rfl, ?_, ?_, ?_⟩
  · exact ingestFile_self g self []
  · exact ingestFile_self g self [header]
  · unfold dataIf
    rw [ingestFile_self, ingestFile_self]
    rfl

/-- Claim C16: `splitCSVLine` returns a non-empty list whose length is 1 plus
the number of `','` characters preceded by an even number of `'"'` characters,
no field contains `'"'`, and the fields concatenated are the line without its
`'"'` characters and those unquoted commas. -/
theorem splitCSVLine_shape (s : Str) :
    splitCSVLine s ≠ [] ∧
    (splitCSVLine s).length = 1 + unquotedCommaCount s ∧
    (∀ f ∈ splitCSVLine s, '"' ∉ f) ∧
    (splitCSVLine s).flatten = withoutQuotesAndSeparators s := by
  obtain ⟨h1, h2, h3⟩ := splitLoop_spec s 0 [] [] false (by decide)
  have hlen : (splitCSVLine s).length = 1 + unquotedCommaCount s := by
    unfold splitCSVLine
    rw [h1, unquotedCommaCount_eq]
    simp
  refine ⟨?_, hlen, ?_, ?_⟩
  · intro h
    rw [h] at hlen
    simp at hlen
    omega
  · exact h3 (by simp) (by simp)
  · unfold splitCSVLine
    rw [h2, withoutQuotesAndSeparators_eq]
    simp

/-- Claim C17: for a non-empty list of fields without `'"'`, splitting the line
of the quoted fields joined with `','` returns the fields; and when the
fields have no `','` either, splitting the plain joined line returns them. -/
theorem split_round_trip (fields : List Str) (hne : fields ≠ [])
    (hq : ∀ f ∈ fields, '"' ∉ f) :
    splitCSVLine (joinComma (fields.map quoted)) = fields ∧
    ((∀ f ∈ fields, ',' ∉ f) → splitCSVLine (joinComma fields) = fields) := by
  unfold splitCSVLine
  refine ⟨?_, ?_⟩
  · rw [splitLoop_quoted_fields fields [] hne hq, List.nil_append]
  · intro hc
    rw [splitLoop_plain_fields fields [] hne (fun f hf => ⟨hq f hf, hc f hf⟩), List.nil_append]

/-- Witness for C17: three fields, one with a comma and one empty, quoted and
joined as `"a,b","","c"`; and three plain fields. -/
theorem split_round_trip_witness :
    ["a,b".toList, [], "c".toList] ≠ [] ∧
      (∀ f ∈ ["a,b".toList, [], "c".toList], '"' ∉ f) ∧
      splitCSVLine (joinComma (["a,b".toList, [], "c".toList].map quoted)) =
        ["a,b".toList, [], "c".toList] ∧
      joinComma (["a,b".toList, [], "c".toList].map quoted) = "\"a,b\",\"\",\"c\"".toList ∧
      splitCSVLine (joinComma ["a".toList, [], "c".toList]) = ["a".toList, [], "c".toList] :=
  ⟨by decide, by decide,
    (split_round_trip ["a,b".toList, [], "c".toList] (by decide) (by decide)).1, by decide,
    (split_round_trip ["a".toList, [], "c".toList] (by decide) (by decide)).2 (by decide)⟩

/-- Claim C18: `trimInPlace` is idempotent; its result is the string without its
longest all-whitespace prefix and then without the longest all-whitespace
suffix of the rest, a contiguous part of the string between two all-whitespace
parts; the result is empty or starts and ends with a non-whitespace character;
and the result is the string itself exactly when the string is empty or
starts and ends with a non-whitespace character. -/
theorem trimInPlace_exact (s : Str) :
    trimInPlace (trimInPlace s) = trimInPlace s ∧
    trimInPlace s = (s.dropWhile isspace).rdropWhile isspace ∧
    (∃ pre suf, s = pre ++ trimInPlace s ++ suf ∧ (∀ c ∈ pre, isspace c = true) ∧
      ∀ c ∈ suf, isspace c = true) ∧
    (trimInPlace s = [] ∨ ∃ a b, (trimInPlace s).head? = some a ∧
      (trimInPlace s).getLast? = some b ∧ isspace a = false ∧ isspace b = false) ∧
    (trimInPlace s = s ↔ (s = [] ∨ ∃ a b, s.head? = some a ∧ s.getLast? = some b ∧
      isspace a = false ∧ isspace b = false)) := by
  rw [trimInPlace_eq_trimSpec, trimInPlace_eq_trimSpec]
  exact ⟨(trimSpec_eq_self_iff _).mpr (trimSpec_trimmed s), rfl, trimSpec_split s,
    trimSpec_trimmed s, trimSpec_eq_self_iff s⟩

/-- Claim C19: for every state and every `k`, `topZones(k)` is a prefix of
`topZones(k + 1)` and `topBusySlots(k)` is a prefix of `topBusySlots(k + 1)`. -/
theorem topK_nested (g : Registry) (self : Nat) (k : Int) :
    topZones g self k <+: topZones g self (k + 1) ∧
    topBusySlots g self k <+: topBusySlots g self (k + 1) := by
  by_cases hk : 0 < k
  · cases hd : dataIf g self with
    | none =>
      unfold topZones topBusySlots
      rw [hd]
      simp
    | some d =>
      rw [topZones_eq g self d k hd hk, topZones_eq g self d (k + 1) hd (by omega),
        topBusySlots_eq g self d k hd hk, topBusySlots_eq g self d (k + 1) hd (by omega)]
      exact ⟨truncate_prefix_succ k _, truncate_prefix_succ k _⟩
  · have hz : topZones g self k = [] := by unfold topZones; rw [if_pos (by omega)]
    have hs : topBusySlots g self k = [] := by unfold topBusySlots; rw [if_pos (by omega)]
    rw [hz, hs]
    exact ⟨List.nil_prefix, List.nil_prefix⟩

/-- Claim C20: two sources with the same header whose data lines are
permutations of each other give tables with the same entries (equal counts
for every key, the entry lists being permutations of each other), and equal
`topZones(k)` and `topBusySlots(k)` for every `k`. -/
theorem ingest_order_independent (g : Registry) (self : Nat) (header : Str)
    (rest rest' : List Str) (k : Int) (hp : rest.Perm rest') :
    ∃ d d', dataIf (ingestFile g self (some (header :: rest))) self = some d ∧
      dataIf (ingestFile g self (some (header :: rest'))) self = some d' ∧
      d.zoneCounts.Perm d'.zoneCounts ∧ d.slotCounts.Perm d'.slotCounts ∧
      (∀ z, countOf d.zoneCounts z = countOf d'.zoneCounts z) ∧
      (∀ (z : Str) (n : Nat),
        countOf d.slotCounts ⟨z, (n : Int)⟩ = countOf d'.slotCounts ⟨z, (n : Int)⟩) ∧
      topZones (ingestFile g self (some (header :: rest))) self k =
        topZones (ingestFile g self (some (header :: rest'))) self k ∧
      topBusySlots (ingestFile g self (some (header :: rest))) self k =
        topBusySlots (ingestFile g self (some (header :: rest'))) self k := by
  have hd := ingestFile_self g self (header :: rest)
  have hd' := ingestFile_self g self (header :: rest')
  rw [List.tail_cons] at hd hd'
  have hz := zoneTable_perm rest rest' hp
  have hs := slotTable_perm rest rest' hp
  refine ⟨_, _, hd, hd', hz, hs, ?_, ?_, ?_, ?_⟩
  · intro z
    rw [zoneCount_foldl, zoneCount_foldl, hp.countP_eq]
  · intro z n
    rw [slotCount_foldl, slotCount_foldl, hp.countP_eq]
  · by_cases hk : 0 < k
    · rw [topZones_eq (ingestFile g self (some (header :: rest))) self _ k hd hk,
        topZones_eq (ingestFile g self (some (header :: rest'))) self _ k hd' hk,
        sort_congr zoneCountLess_strictTotal (hz.map _)]
    · unfold topZones
      rw [if_pos (by omega), if_pos (by omega)]
  · by_cases hk : 0 < k
    · rw [topBusySlots_eq (ingestFile g self (some (header :: rest))) self _ k hd hk,
        topBusySlots_eq (ingestFile g self (some (header :: rest'))) self _ k hd' hk,
        sort_congr slotCountLess_strictTotal (hs.map _)]
    · unfold topBusySlots
      rw [if_pos (by omega), if_pos (by omega)]

/-- Witness for C20: two data lines in either order. -/
theorem ingest_order_independent_witness :
    [",a,, 05,,".toList, ",b,, 06,,".toList].Perm [",b,, 06,,".toList, ",a,, 05,,".toList] ∧
      topZones (ingestFile emptyRegistry 0
          (some ("h".toList :: [",a,, 05,,".toList, ",b,, 06,,".toList]))) 0 5 =
        topZones (ingestFile emptyRegistry 0
          (some ("h".toList :: [",b,, 06,,".toList, ",a,, 05,,".toList]))) 0 5 :=
  have hp : [",a,, 05,,".toList, ",b,, 06,,".toList].Perm
      [",b,, 06,,".toList, ",a,, 05,,".toList] := List.Perm.swap _ _ _
  ⟨hp,
    (ingest_order_independent emptyRegistry 0 "h".toList _ _ 5 hp).elim
      fun _ h => h.elim fun _ h' => h'.2.2.2.2.2.2.1⟩

end TripAnalyzer
